import Mathlib

/-!
# Verification of the vigenair pipeline core

A shallow embedding, in Lean 4, of the segment-synthesis, segment-splitting,
render-grouping, fan-in, chunking and annotation logic of the vigenair
repository (`src/service/...`), together with theorems settling the frozen
claims about it.

Conventions used throughout:
* Python floats carrying media timestamps and confidences are modelled as `ℚ`;
  every claim settled here is about ordering, equality of values copied
  verbatim, and arithmetic of the form `end - start`, all of which are
  representation-independent.
* Python lists are `List`, Python `dict` grouping is insertion-ordered
  association lists, and Python `set` values are either membership-deduplicated
  lists (where no claim depends on iteration order) or are passed an explicit
  enumeration function (where a claim mentions order).
* Fallible Python code (`raise`, unguarded indexing) is `Option`/`Except`.
-/

namespace Vigenair

/-! ## Decimal digits and Python `int()` / `str()` on segment-id parts

Segment ids are dotted-decimal strings (`"7"`, `"7.2"`).  The combiner parses
their parts with Python `int()` and rebuilds them with `str()`; we model the
digit forms that occur in ids.  (Python's `int()` additionally tolerates
surrounding whitespace, a leading `+`, and underscore separators; those forms
never occur in ids and the modelled parser rejects them, matching `int()` on
every string made of an optional sign followed by digits.) -/

/-- `str` of a decimal digit value. -/
def digitChar : Nat → Char
  | 0 => '0' | 1 => '1' | 2 => '2' | 3 => '3' | 4 => '4'
  | 5 => '5' | 6 => '6' | 7 => '7' | 8 => '8' | 9 => '9'
  | _ => '*'

/-- Value of a decimal digit character, `none` on any other character. -/
def digitVal? (c : Char) : Option Nat :=
  if c = '0' then some 0 else if c = '1' then some 1 else
  if c = '2' then some 2 else if c = '3' then some 3 else
  if c = '4' then some 4 else if c = '5' then some 5 else
  if c = '6' then some 6 else if c = '7' then some 7 else
  if c = '8' then some 8 else if c = '9' then some 9 else none

/-- Decimal digits of `n`, most significant first (fuelled so that the kernel
can evaluate it; `natChars` below always supplies enough fuel). -/
def natCharsAux : Nat → Nat → List Char
  | 0, _ => []
  | fuel + 1, n => if n < 10 then [digitChar n] else
      natCharsAux fuel (n / 10) ++ [digitChar (n % 10)]

/-- Python `str` on a non-negative int, as a character list. -/
def natChars (n : Nat) : List Char := natCharsAux (n + 1) n

/-- Python `int` on a non-empty all-digit character list. -/
def digitsVal? (cs : List Char) : Option Nat :=
  if cs = [] then none
  else cs.foldlM (fun acc c => (digitVal? c).map (fun d => acc * 10 + d)) 0

/-- Python `int()` on a string given as a character list: an optional sign
followed by at least one digit; everything else raises (`none`). -/
def pyInt? (cs : List Char) : Option Int :=
  match cs with
  | c :: rest =>
      if c = '-' then (digitsVal? rest).map (fun n => -(n : Int))
      else if c = '+' then (digitsVal? rest).map (fun n => (n : Int))
      else (digitsVal? cs).map (fun n => (n : Int))
  | [] => (digitsVal? cs).map (fun n => (n : Int))

/-- Python `str()` on an int, as a character list. -/
def intChars (i : Int) : List Char :=
  if i < 0 then '-' :: natChars i.natAbs else natChars i.natAbs

/-- Python `s.split('.')` on a character list.  Never returns `[]`:
`''.split('.') == ['']`. -/
def splitDot : List Char → List (List Char)
  | [] => [[]]
  | c :: rest =>
      if c = '.' then [] :: splitDot rest
      else
        match splitDot rest with
        | [] => [[c]]
        | p :: ps => (c :: p) :: ps

/-- Python `'.'.join(parts)` on character lists. -/
def joinDot (ps : List (List Char)) : List Char := List.intercalate ['.'] ps

/-! ## Render Composer: sequential grouping
(`src/service/combiner/combiner.py`, `_is_sequential_segments` and
`_group_consecutive_segments`.) -/

/-- Embedding of `_is_sequential_segments`.  Mirrors the Python control flow:
`int(current_parts[-1])` is evaluated first (building `next_level_parts`), a
`ValueError` anywhere in the `try` block yields `False`; the first disjunct
only parses `int(next_parts[-1])` after the length and prefix guards have
passed (`and` short-circuits); the second disjunct is a plain string
comparison. -/
def isSequentialSegments (currentSegmentId nextSegmentId : String) : Bool :=
  let currentParts := splitDot currentSegmentId.toList
  let nextParts := splitDot nextSegmentId.toList
  match pyInt? (currentParts.getLastD []) with
  | none => false
  | some cl =>
    let nextLevelParts := currentParts.dropLast ++ [intChars (cl + 1)]
    let firstDisjunct : Option Bool :=
      if currentParts.length = nextParts.length
          ∧ currentParts.dropLast = nextParts.dropLast then
        (pyInt? (nextParts.getLastD [])).map (fun nl => nl = cl + 1)
      else
        some false
    match firstDisjunct with
    | none => false
    | some b => b || (nextSegmentId.toList == joinDot nextLevelParts ++ ['.', '1'])

/-- Inner `while` of `_group_consecutive_segments`: extend the run begun at
`startSegment` whose current last element is `cur` while ids stay
sequential. -/
def groupRunAux (startSegment cur : String) :
    List String → List (String × String)
  | [] => [(startSegment, cur)]
  | y :: ys =>
      if isSequentialSegments cur y then groupRunAux startSegment y ys
      else (startSegment, cur) :: groupRunAux y y ys

/-- Embedding of `_group_consecutive_segments`. -/
def groupConsecutiveSegments : List String → List (String × String)
  | [] => []
  | x :: xs => groupRunAux x x xs

/-! ## Segment Optimizer
(`src/service/extractor/extractor.py`, `_create_optimised_av_segments`;
its input rows come from `VideoService.get_visual_shots_data`.) -/

/-- One row of the shots dataframe built by `get_visual_shots_data`:
a visual shot with the ids of the transcript utterances overlapping it. -/
structure VisualShot where
  shot_id : Nat
  audio_segment_ids : List Nat
  start_s : ℚ
  end_s : ℚ
  duration_s : ℚ
  deriving Repr, DecidableEq

/-- One output row of `_create_optimised_av_segments`. -/
structure AvSegment where
  av_segment_id : String
  visual_segment_ids : List Nat
  audio_segment_ids : List Nat
  start_s : ℚ
  end_s : ℚ
  duration_s : ℚ
  transcript : List String
  deriving Repr, DecidableEq

/-- `(shot_id, start_s, end_s)`, the tuple the optimiser accumulates in
`current_visual_segments`. -/
def shotTriple (s : VisualShot) : Nat × ℚ × ℚ := (s.shot_id, s.start_s, s.end_s)

/-- The start timestamp of an accumulated `(shot_id, start_s, end_s)`. -/
def tripleStart (t : Nat × ℚ × ℚ) : ℚ := t.2.1

/-- The end timestamp of an accumulated `(shot_id, start_s, end_s)`. -/
def tripleEnd (t : Nat × ℚ × ℚ) : ℚ := t.2.2

/-- Python `set.union` on id sets represented as deduplicated lists; no claim
depends on the iteration order of these sets. -/
def idUnion (a b : List Nat) : List Nat := (a ++ b).dedup

/-- Binary `min` on timestamps (spelled out so the kernel can evaluate it on
concrete rationals; `qmin_eq_min` identifies it with `min`). -/
def qmin (a b : ℚ) : ℚ := if a ≤ b then a else b

/-- Binary `max` on timestamps. -/
def qmax (a b : ℚ) : ℚ := if a ≤ b then b else a

/-- The accumulator of the optimiser's sweep.  `current_visual_segments` is
non-empty whenever the loop body runs past the first shot, so it is carried as
a head element plus a tail. -/
structure OptimiserAcc where
  visHead : Nat × ℚ × ℚ
  visTail : List (Nat × ℚ × ℚ)
  audioIds : List Nat
  index : Nat
  isLastShotShort : Bool
  out : List AvSegment

/-- The flush block of `_create_optimised_av_segments`: emit the accumulator as
one `AvSegment` (`start = min` of accumulated starts, `end = max` of
accumulated ends, id `str(index + 1)`).  `transcript` is the join performed by
`_get_dataframe_by_ids`, here `transcriptOf` applied to each accumulated audio
id. -/
def flushSegment (transcriptOf : Nat → String) (index : Nat)
    (visHead : Nat × ℚ × ℚ) (visTail : List (Nat × ℚ × ℚ))
    (audioIds : List Nat) : AvSegment :=
  let start := (visTail.map tripleStart).foldl qmin (tripleStart visHead)
  let stop := (visTail.map tripleEnd).foldl qmax (tripleEnd visHead)
  { av_segment_id := String.mk (natChars (index + 1))
    visual_segment_ids := (visHead :: visTail).map (fun e => e.1)
    audio_segment_ids := audioIds
    start_s := start
    end_s := stop
    duration_s := stop - start
    transcript := audioIds.map transcriptOf }

/-- The `for` loop of `_create_optimised_av_segments`, after its first
iteration (which always appends to the empty accumulator), followed by the
final flush after the loop. -/
def optimiserLoop (transcriptOf : Nat → String) :
    List VisualShot → OptimiserAcc → List AvSegment
  | [], acc =>
      acc.out ++ [flushSegment transcriptOf acc.index acc.visHead acc.visTail
        acc.audioIds]
  | shot :: rest, acc =>
      let aids := shot.audio_segment_ids
      let silentShortShot := aids.isEmpty && decide (shot.duration_s ≤ 1)
      let continuedShot := aids.any (fun a => acc.audioIds.contains a)
      if continuedShot
          || (silentShortShot && acc.audioIds.isEmpty && acc.isLastShotShort)
      then
        optimiserLoop transcriptOf rest
          { acc with
            visTail := acc.visTail ++ [shotTriple shot]
            audioIds := idUnion acc.audioIds aids
            isLastShotShort := silentShortShot }
      else
        optimiserLoop transcriptOf rest
          { visHead := shotTriple shot
            visTail := []
            audioIds := aids.dedup
            index := acc.index + 1
            isLastShotShort := silentShortShot
            out := acc.out ++ [flushSegment transcriptOf acc.index acc.visHead
              acc.visTail acc.audioIds] }

/-- Embedding of `_create_optimised_av_segments`.  On an empty shots dataframe
the Python code raises (`min()` over an empty sequence in the final flush);
this is the `none` case. -/
def createOptimisedAvSegments (transcriptOf : Nat → String)
    (shots : List VisualShot) : Option (List AvSegment) :=
  match shots with
  | [] => none
  | shot :: rest =>
      some (optimiserLoop transcriptOf rest
        { visHead := shotTriple shot
          visTail := []
          audioIds := shot.audio_segment_ids.dedup
          index := 0
          isLastShotShort :=
            shot.audio_segment_ids.isEmpty && decide (shot.duration_s ≤ 1)
          out := [] })

/-! ## Segment Splitter
(`src/service/extractor/extractor.py`, `AvSegmentSplitMarker` and
`_finalise_split`.) -/

/-- `AvSegmentSplitMarker`. -/
structure AvSegmentSplitMarker where
  av_segment_id : String
  marker_cut_time_s : ℚ
  deriving Repr, DecidableEq

/-- One row of the `av_segments` dataframe handled by `_finalise_split` (the
columns that function reads or writes). -/
structure SplitSegment where
  av_segment_id : String
  visual_segment_ids : List Nat
  audio_segment_ids : List Nat
  start_s : ℚ
  end_s : ℚ
  duration_s : ℚ
  transcript : List String
  labels : List String
  objects : List String
  logos : List String
  text : List String
  cut : Bool
  deriving Repr, DecidableEq

/-- `f'{baseId}.{j}'`. -/
def subSegmentId (baseId : String) (j : Nat) : String :=
  baseId ++ "." ++ String.mk (natChars j)

/-- A masked dataframe assignment
`av_segments.loc[av_segments['av_segment_id'] == targetId, ...] = ...`:
update every row whose id matches. -/
def updateRows (segs : List SplitSegment) (targetId : String)
    (f : SplitSegment → SplitSegment) : List SplitSegment :=
  segs.map (fun s => if s.av_segment_id = targetId then f s else s)

/-- The `grouped_markers` dict: markers grouped by `av_segment_id`, keys in
first-occurrence order, each group's cut times in supplied order. -/
def addMarkerToGroups (gs : List (String × List ℚ)) (m : AvSegmentSplitMarker) :
    List (String × List ℚ) :=
  if gs.any (fun g => g.1 = m.av_segment_id) then
    gs.map (fun g =>
      if g.1 = m.av_segment_id then (g.1, g.2 ++ [m.marker_cut_time_s]) else g)
  else gs ++ [(m.av_segment_id, [m.marker_cut_time_s])]

/-- Builds `grouped_markers`. -/
def groupMarkers (ms : List AvSegmentSplitMarker) : List (String × List ℚ) :=
  ms.foldl addMarkerToGroups []

/-- State threaded through the inner `for i, marker in enumerate(markers)`
loop of `_finalise_split`. -/
structure SplitLoopState where
  segs : List SplitSegment
  currentSegmentId : String
  currentStart : ℚ

/-- The body of the inner marker loop of `_finalise_split`, processing the
markers from position `i` on (`k` is the total number of markers of the
group, `rowToSplit` the pristine copy of the targeted row).  Note
`marker_cut_time_s + current_start_s`, and that `current_start_s` is
reassigned only when `i == len(markers) - 1`, i.e. after the last marker,
where it is never read again. -/
def applyMarkersFrom (baseId : String) (rowToSplit : SplitSegment) (k : Nat) :
    Nat → List ℚ → SplitLoopState → SplitLoopState
  | _, [], st => st
  | i, t :: ts, st =>
      let markerCutTime := t + st.currentStart
      let newRowEnd := if i = k - 1 then rowToSplit.end_s else markerCutTime
      let newRowId := subSegmentId baseId (i + 2)
      let segs1 := updateRows st.segs st.currentSegmentId (fun s =>
        { s with
          end_s := markerCutTime
          duration_s := markerCutTime - st.currentStart
          cut := true })
      let newRow : SplitSegment :=
        { av_segment_id := newRowId
          visual_segment_ids := rowToSplit.visual_segment_ids
          audio_segment_ids := rowToSplit.audio_segment_ids
          start_s := markerCutTime
          end_s := newRowEnd
          duration_s := newRowEnd - markerCutTime
          transcript := rowToSplit.transcript
          labels := rowToSplit.labels
          objects := rowToSplit.objects
          logos := rowToSplit.logos
          text := rowToSplit.text
          cut := true }
      applyMarkersFrom baseId rowToSplit k (i + 1) ts
        { segs := segs1 ++ [newRow]
          currentSegmentId := newRowId
          currentStart := if i = k - 1 then markerCutTime else st.currentStart }

/-- One iteration of the outer `for av_segment_id, markers in
grouped_markers.items()` loop: look up the targeted row (skip the group if it
is missing), rename it to `{id}.1`, then run the marker loop. -/
def applySplitGroup (segs : List SplitSegment) (g : String × List ℚ) :
    List SplitSegment :=
  match segs.filter (fun s => s.av_segment_id = g.1) with
  | [] => segs
  | rowToSplit :: _ =>
      let renamed := updateRows segs g.1 (fun s =>
        { s with av_segment_id := subSegmentId g.1 1 })
      (applyMarkersFrom g.1 rowToSplit g.2.length 0 g.2
        { segs := renamed
          currentSegmentId := subSegmentId g.1 1
          currentStart := rowToSplit.start_s }).segs

/-- `av_segments['cut'] = False` on one row. -/
def withCutFalse (s : SplitSegment) : SplitSegment := { s with cut := false }

/-- The final `av_segments['duration_s'] = end_s - start_s` on one row. -/
def withRecomputedDuration (s : SplitSegment) : SplitSegment :=
  { s with duration_s := s.end_s - s.start_s }

/-- Embedding of `_finalise_split`: set `cut = False` everywhere, apply every
marker group, recompute every `duration_s` as `end_s - start_s`, and sort by
`start_s`.  (`pandas.sort_values` does not promise stability; no claim settled
here depends on the relative order of equal keys.) -/
def finaliseSplit (avSegments : List SplitSegment)
    (avSegmentMarkers : List AvSegmentSplitMarker) : List SplitSegment :=
  let segs0 := avSegments.map withCutFalse
  let afterGroups := (groupMarkers avSegmentMarkers).foldl applySplitGroup segs0
  let recomputed := afterGroups.map withRecomputedDuration
  recomputed.mergeSort (fun a b => decide (a.start_s ≤ b.start_s))

/-- The rows the marker loop leaves behind for one targeted segment, as the
loop builds them (before the final duration recomputation): processing the
remaining cut times `ts` from marker index `i` with current tail row
`tailRow`, each cut time `t` trims the current tail to end at `t + S` (`S` is
`current_start_s`, which stays the targeted row's own start throughout) and
appends the next trailing sub-segment built from the pristine
`rowToSplit`. -/
def loopRows (baseId : String) (rowToSplit : SplitSegment) (S : ℚ) (k : Nat) :
    Nat → List ℚ → SplitSegment → List SplitSegment
  | _, [], tailRow => [tailRow]
  | i, t :: ts, tailRow =>
      { tailRow with
        end_s := t + S
        duration_s := t + S - S
        cut := true } ::
        loopRows baseId rowToSplit S k (i + 1) ts
          { av_segment_id := subSegmentId baseId (i + 2)
            visual_segment_ids := rowToSplit.visual_segment_ids
            audio_segment_ids := rowToSplit.audio_segment_ids
            start_s := t + S
            end_s := if i = k - 1 then rowToSplit.end_s else t + S
            duration_s := (if i = k - 1 then rowToSplit.end_s else t + S)
              - (t + S)
            transcript := rowToSplit.transcript
            labels := rowToSplit.labels
            objects := rowToSplit.objects
            logos := rowToSplit.logos
            text := rowToSplit.text
            cut := true }

/-- The `j`-th sub-segment of a split of `orig`, spanning
`[startAbs, endAbs]`: all content fields are inherited verbatim, the id is
`"{orig.av_segment_id}.{j}"`, `cut = true`, and the duration is the final
recomputed one. -/
def splitContentRow (orig : SplitSegment) (j : Nat) (startAbs endAbs : ℚ) :
    SplitSegment :=
  { av_segment_id := subSegmentId orig.av_segment_id j
    visual_segment_ids := orig.visual_segment_ids
    audio_segment_ids := orig.audio_segment_ids
    start_s := startAbs
    end_s := endAbs
    duration_s := endAbs - startAbs
    transcript := orig.transcript
    labels := orig.labels
    objects := orig.objects
    logos := orig.logos
    text := orig.text
    cut := true }

/-- The final sub-segments of a split of `orig` at cut times `ts` (each
interpreted as `t + orig.start_s`), numbered from `j`, the current sub-segment
starting at `prevAbs`. -/
def splitRowsAux (orig : SplitSegment) : Nat → ℚ → List ℚ → List SplitSegment
  | j, prevAbs, [] => [splitContentRow orig j prevAbs orig.end_s]
  | j, prevAbs, t :: ts =>
      splitContentRow orig j prevAbs (t + orig.start_s) ::
        splitRowsAux orig (j + 1) (t + orig.start_s) ts

/-- The `ts.length + 1` sub-segments `"{id}.1" … "{id}.{k+1}"` that splitting
`orig` at cut times `ts` produces. -/
def splitRows (orig : SplitSegment) (ts : List ℚ) : List SplitSegment :=
  splitRowsAux orig 1 orig.start_s ts

/-! ## Entity attachment
(`src/service/video/video.py`, `_identify_segments` and the
`get_shot_labels_data` / `get_object_tracking_data` / `get_logo_detection_data`
/ `get_text_detection_data` family; `src/service/extractor/extractor.py`,
`_get_entities` and `_annotate_segments`.) -/

/-- One detected entity of any of the four kinds, before the segment join:
its value (the `label` / description / `text` column), time range and
confidence. -/
structure EntityRow where
  value : String
  start_s : ℚ
  end_s : ℚ
  confidence : ℚ
  deriving Repr, DecidableEq

/-- An entity row together with the `av_segment_ids` column computed by
`_identify_segments`. -/
structure JoinedEntityRow extends EntityRow where
  av_segment_ids : List String
  deriving Repr, DecidableEq

/-- The row predicate of `_identify_segments` for the range `[t0, t1)`:
rows starting before and ending within or after the range, or rows starting
within the range. -/
def rowOverlapsRange (t0 t1 : ℚ) (start stop : ℚ) : Bool :=
  (decide (start ≤ t0) && decide (stop > t0))
    || (decide (start ≥ t0) && decide (start < t1))

/-- Embedding of `_identify_segments` run against the optimised A/V segments:
the ids of the segments overlapping `[t0, t1)`. -/
def identifySegments (t0 t1 : ℚ) (segments : List AvSegment) : List String :=
  (segments.filter (fun s => rowOverlapsRange t0 t1 s.start_s s.end_s)).map
    (fun s => s.av_segment_id)

/-- The common shape of `get_shot_labels_data` and its three siblings: each
entity row gains the ids of the segments it overlaps, and the dataframe is
sorted by `start_s`. -/
def buildEntityRows (rows : List EntityRow) (segments : List AvSegment) :
    List JoinedEntityRow :=
  (rows.map (fun r =>
    { toEntityRow := r
      av_segment_ids := identifySegments r.start_s r.end_s segments })
  ).mergeSort (fun a b => decide (a.start_s ≤ b.start_s))

/-- Characterises Python's `list(set(xs))` for an unknown hash-seed: a
duplicate-free enumeration of the members of `xs`, in an unspecified order. -/
def IsPySetList (f : List String → List String) : Prop :=
  ∀ l : List String, (f l).Nodup ∧ ∀ x, x ∈ f l ↔ x ∈ l

/-- Embedding of `_get_entities`, parameterised by the set enumeration
`pySetList` used for the final `list(set(entities))`: rows whose
`av_segment_ids` contain the searched id, filtered to confidences strictly
above the threshold, sorted descending by confidence, projected to their
values, then deduplicated through a `set`. -/
def getEntities (threshold : ℚ) (pySetList : List String → List String)
    (data : List JoinedEntityRow) (searchValue : String) : List String :=
  let temp := data.filter (fun r => searchValue ∈ r.av_segment_ids)
  let sorted := (temp.filter (fun r => r.confidence > threshold)).mergeSort
    (fun a b => decide (a.confidence ≥ b.confidence))
  pySetList (sorted.map (fun r => r.value))

/-- An optimised A/V segment with the four entity columns attached. -/
structure AnnotatedSegment extends AvSegment where
  labels : List String
  objects : List String
  logos : List String
  text : List String
  deriving Repr, DecidableEq

/-- Embedding of `_annotate_segments` composed with the four dataframe
builders: each segment, independently for each entity kind, receives
`_get_entities` of that kind's joined dataframe. -/
def annotateSegments (threshold : ℚ) (pySetList : List String → List String)
    (segments : List AvSegment)
    (labelRows objectRows logoRows textRows : List EntityRow) :
    List AnnotatedSegment :=
  segments.map (fun s =>
    { toAvSegment := s
      labels := getEntities threshold pySetList
        (buildEntityRows labelRows segments) s.av_segment_id
      objects := getEntities threshold pySetList
        (buildEntityRows objectRows segments) s.av_segment_id
      logos := getEntities threshold pySetList
        (buildEntityRows logoRows segments) s.av_segment_id
      text := getEntities threshold pySetList
        (buildEntityRows textRows segments) s.av_segment_id })

/-! ## Fan-in checks
(`src/service/extractor/audio_extractor.py`, `_check_finalise_extract_audio`;
`src/service/extractor/video_extractor.py`, `_check_finalise_extract_video`;
`src/service/extractor/extractor.py`, `Extractor.check_finalise_extraction`;
constants from `src/service/config/config.py`.)

Each check is a pure function of the storage listing it performs, returning
the name of the marker object it writes, or `none` when it writes nothing. -/

/-- `ConfigService.INPUT_EXTRACTION_FINALISE_SUFFIX`. -/
def extractionFinaliseSuffix : String := "_finalise.txt"

/-- `ConfigService.INPUT_EXTRACTION_FINALISE_COUNT`. -/
def extractionFinaliseCount : Nat := 2

/-- Embedding of `_check_finalise_extract_audio`: `transcriptFileCount` is the
number of objects listed with suffix `transcript.json`; with `skip_analysis`
the listing is skipped and the count is taken to be 1. -/
def checkFinaliseExtractAudio (totalCount : Nat) (transcriptFileCount : Nat)
    (skipAnalysis : Bool) : Option String :=
  let analysedCount := if skipAnalysis then 1 else transcriptFileCount
  if analysedCount = totalCount then
    some (String.mk (natChars totalCount) ++ "-"
      ++ String.mk (natChars totalCount) ++ "_audio" ++ extractionFinaliseSuffix)
  else none

/-- Embedding of `_check_finalise_extract_video`: `analysedFileCount` is the
number of objects listed with suffix `analysis.json`. -/
def checkFinaliseExtractVideo (totalCount : Nat) (analysedFileCount : Nat) :
    Option String :=
  if analysedFileCount = totalCount then
    some (String.mk (natChars totalCount) ++ "-"
      ++ String.mk (natChars totalCount) ++ "_video" ++ extractionFinaliseSuffix)
  else none

/-- Embedding of `Extractor.check_finalise_extraction`: `finaliseFileCount` is
the number of objects listed with suffix `_finalise.txt`; on a match the
fixed-name marker `ConfigService.INPUT_EXTRACTION_FINALISE_FILE` is written. -/
def checkFinaliseExtraction (finaliseFileCount : Nat) : Option String :=
  if finaliseFileCount = extractionFinaliseCount then
    some "extract_finalise.txt"
  else none

/-! ## Chunkers
(`src/service/extractor/video_extractor.py`, `_get_video_chunks`;
`src/service/extractor/audio_extractor.py`, `_get_audio_chunks`.)

Chunks are represented by their `file_count` index (`0` standing for the
uncut input file); `probe i` is the duration `Utils.get_media_duration`
reports for the chunk cut as `file_count == i`.  The unbounded Python `while`
loops are fuelled: `none` means the fuel ran out, i.e. the loop had not
terminated after that many iterations. -/

/-- The `while current_duration < duration` loop of `_get_video_chunks`.  On a
zero probed duration the chunk is discarded (`file_count -= 1`,
`os.remove(...)`) and the loop breaks. -/
def videoChunksLoop (probe : Nat → ℚ) (duration : ℚ) :
    Nat → ℚ → Nat → List Nat → Option (List Nat)
  | 0, _, _, _ => none
  | fuel + 1, currentDuration, fileCount, result =>
      if currentDuration < duration then
        let newCount := fileCount + 1
        let newDuration := probe newCount
        if newDuration = 0 then some result
        else videoChunksLoop probe duration fuel (currentDuration + newDuration)
          newCount (result ++ [newCount])
      else some result

/-- Embedding of `_get_video_chunks`. -/
def getVideoChunks (probe : Nat → ℚ) (fileSize sizeLimit : Nat) (duration : ℚ)
    (fuel : Nat) : Option (List Nat) :=
  if fileSize > sizeLimit then videoChunksLoop probe duration fuel 0 0 []
  else some [0]

/-- The `while current_duration < duration` loop of `_get_audio_chunks`.
Unlike the video loop it has no zero-duration guard: the probed duration is
added to `current_duration` and the chunk is kept unconditionally. -/
def audioChunksLoop (probe : Nat → ℚ) (duration : ℚ) :
    Nat → ℚ → Nat → List Nat → Option (List Nat)
  | 0, _, _, _ => none
  | fuel + 1, currentDuration, fileCount, result =>
      if currentDuration < duration then
        let newCount := fileCount + 1
        let newDuration := probe newCount
        audioChunksLoop probe duration fuel (currentDuration + newDuration)
          newCount (result ++ [newCount])
      else some result

/-- Embedding of `_get_audio_chunks`. -/
def getAudioChunks (probe : Nat → ℚ) (duration durationLimit : ℚ)
    (fuel : Nat) : Option (List Nat) :=
  if duration > durationLimit then audioChunksLoop probe duration fuel 0 0 []
  else some [0]

/-! ## Cut/Annotate Worker
(`src/service/extractor/extractor.py`, `_cut_and_annotate_av_segment` and
`Extractor.cut_and_annotate_av_segments`.) -/

/-- What the generative-model call inside `_cut_and_annotate_av_segment` did:
it raised, returned a response without usable text (no candidates / parts /
text), or returned the text `t`. -/
inductive GenerateOutcome where
  | raised
  | emptyResponse
  | text (t : String)
  deriving Repr, DecidableEq

/-- The columns of an A/V segment row that `_cut_and_annotate_av_segment`
reads.  `cut = none` models a dataframe without a `cut` column
(`KeyError`, treated as `cut = True`). -/
structure AnnotateRow where
  av_segment_id : String
  cut : Option Bool
  description : String
  keywords : String
  deriving Repr, DecidableEq

/-- Embedding of the annotation part of `_cut_and_annotate_av_segment`,
parameterised by `parse`, the match of `SEGMENT_ANNOTATIONS_PATTERN` returning
groups 2 and 3 (`none` when `re.search` found nothing, in which case
`result.group(2)` raises and the broad `except` yields the defaults).  Rows
with `cut == False` return their stored description and keywords untouched. -/
def cutAndAnnotateAvSegment (parse : String → Option (String × String))
    (row : AnnotateRow) (outcome : GenerateOutcome) : String × String :=
  if row.cut.getD true = false then (row.description, row.keywords)
  else
    match outcome with
    | .raised => ("", "")
    | .emptyResponse => ("", "")
    | .text t =>
        match parse t with
        | none => ("", "")
        | some dk => dk

/-- Embedding of `Extractor.cut_and_annotate_av_segments`: every row is
annotated by its own independent worker; the joining loop writes result `i`
into slot `i`, so the batch is the per-row function mapped over the rows,
`outcomes i` being what row `i`'s model call did. -/
def cutAndAnnotateAvSegments (parse : String → Option (String × String))
    (rows : List AnnotateRow) (outcomes : Nat → GenerateOutcome) :
    List (String × String) :=
  rows.enum.map (fun p => cutAndAnnotateAvSegment parse p.2 (outcomes p.1))

/-! ## Finalising video extraction
(`src/service/extractor/extractor.py`, `Extractor.extract_video_finalise`.) -/

/-- Embedding of `Extractor.extract_video_finalise`, parameterised over the
chunk type and `VideoService.combine_analysis_chunks`.  `analysisFiles` is the
listing of uploaded `*analysis.json` artifacts; the Boolean records whether a
combined analysis file was written and uploaded.  The Python body runs
`annotation_results[0]` before any guard, so an empty listing raises
`IndexError` and nothing is written. -/
def extractVideoFinalise {α : Type} (combineAnalysisChunks : List α → α)
    (analysisFiles : List α) : Except String (α × Bool) :=
  match analysisFiles with
  | [] => Except.error "IndexError: list index out of range"
  | r :: rest =>
      if rest.isEmpty then Except.ok (r, false)
      else Except.ok (combineAnalysisChunks (r :: rest), true)

/-! ## Flushed groups: the structure of the optimiser's output

These definitions name the partition the sweep induces on its input: the
output is exactly the flushes of a list of consecutive, non-empty groups of
shots. -/

/-- The data one flush of the optimiser's accumulator is built from. -/
structure FlushGroup where
  visHead : Nat × ℚ × ℚ
  visTail : List (Nat × ℚ × ℚ)
  audioIds : List Nat

/-- The (non-empty) `current_visual_segments` list of a group. -/
def groupTriples (g : FlushGroup) : List (Nat × ℚ × ℚ) := g.visHead :: g.visTail

/-- The segments obtained by flushing `gs` in order starting at index `idx`. -/
def segmentsOfGroups (transcriptOf : Nat → String) (idx : Nat) :
    List FlushGroup → List AvSegment
  | [] => []
  | g :: gs =>
      flushSegment transcriptOf idx g.visHead g.visTail g.audioIds ::
        segmentsOfGroups transcriptOf (idx + 1) gs

/-- The union of the time spans of a list of output segments. -/
def segmentSpanUnion (l : List AvSegment) : Set ℚ :=
  ⋃ s ∈ l, Set.Icc s.start_s s.end_s

/-- The union of the time spans of a list of input shots. -/
def shotSpanUnion (l : List VisualShot) : Set ℚ :=
  ⋃ s ∈ l, Set.Icc s.start_s s.end_s

/-! ## Concrete instances used by witnesses and counterexamples -/

/-- A transcription lookup returning the empty utterance for every id. -/
def emptyTranscript : Nat → String := fun _ => ""

/-- A model outcome function where every call raises. -/
def allCallsRaise : Nat → GenerateOutcome := fun _ => GenerateOutcome.raised

/-- A response parser that never matches the annotation pattern. -/
def parseNothing : String → Option (String × String) := fun _ => none

/-- A probe reporting a zero duration for every cut chunk. -/
def zeroProbe : Nat → ℚ := fun _ => 0

/-- A membership-valid enumeration of a Python `set` that happens to reverse
first-occurrence order: `dedup` keeps the first occurrence of each member, so
this is duplicate-free and membership-preserving. -/
def reversedSetList : List String → List String := fun l => l.dedup.reverse

/-! # Theorems -/

/-- **C10**: finalising video extraction with zero uploaded analysis artifacts
runs `annotation_results[0]` on an empty list, raising `IndexError` instead of
returning an empty result, so the invocation aborts and no output is
written. -/
theorem extractVideoFinalise_empty_raises :
    ∀ (α : Type) (combineAnalysisChunks : List α → α),
      extractVideoFinalise combineAnalysisChunks ([] : List α) =
        Except.error "IndexError: list index out of range" := by
  intro α combineAnalysisChunks
  rfl

/-- **C6 (counterexample)**: the extraction fan-in check
(`Extractor.check_finalise_extraction`, expected total
`INPUT_EXTRACTION_FINALISE_COUNT = 2`) does write exactly one marker when the
listed count equals 2, but its name is the fixed `extract_finalise.txt`,
which does not embed `2-2` anywhere — refuting the claim that every fan-in
marker name embeds `{N}-{N}` followed by the fixed finalise suffix. -/
theorem checkFinaliseExtraction_marker_lacks_count_embedding :
    checkFinaliseExtraction 2 = some "extract_finalise.txt" ∧
      ¬ List.IsInfix "2-2".toList "extract_finalise.txt".toList := by
  refine ⟨rfl, ?_⟩
  decide

/-- **C6 (amended)**: for every fan-in check with expected total `N`, a listed
completion count different from `N` writes no marker; a count equal to `N`
writes exactly one marker.  For the audio and video chunk fan-in checks that
marker's name embeds `{N}-{N}` followed by the fixed finalise suffix; the
extraction fan-in check (`N = INPUT_EXTRACTION_FINALISE_COUNT = 2`) instead
writes the fixed name `extract_finalise.txt`. -/
theorem fanInChecks_write_marker_exactly_at_expected_count :
    (∀ N M, M ≠ N → checkFinaliseExtractAudio N M false = none) ∧
    (∀ N, checkFinaliseExtractAudio N N false =
      some (String.mk (natChars N) ++ "-" ++ String.mk (natChars N)
        ++ "_audio" ++ extractionFinaliseSuffix)) ∧
    (∀ N M, M ≠ N → checkFinaliseExtractVideo N M = none) ∧
    (∀ N, checkFinaliseExtractVideo N N =
      some (String.mk (natChars N) ++ "-" ++ String.mk (natChars N)
        ++ "_video" ++ extractionFinaliseSuffix)) ∧
    (∀ M, M ≠ extractionFinaliseCount → checkFinaliseExtraction M = none) ∧
    checkFinaliseExtraction extractionFinaliseCount =
      some "extract_finalise.txt" := by
  refine ⟨?_, ?_, ?_, ?_, ?_, rfl⟩
  · intro N M h
    simp [checkFinaliseExtractAudio, h]
  · intro N
    simp [checkFinaliseExtractAudio]
  · intro N M h
    simp [checkFinaliseExtractVideo, h]
  · intro N
    simp [checkFinaliseExtractVideo]
  · intro M h
    simp [checkFinaliseExtraction, h]

/-- Witness for `fanInChecks_write_marker_exactly_at_expected_count`: with 3
of an expected 2 artifacts the audio check writes nothing, and with 3 of an
expected `extractionFinaliseCount = 2` the extraction check writes nothing. -/
theorem fanInChecks_write_marker_witness :
    (3 ≠ 2 ∧ checkFinaliseExtractAudio 2 3 false = none) ∧
      (3 ≠ extractionFinaliseCount ∧ checkFinaliseExtraction 3 = none) :=
  ⟨⟨by decide, fanInChecks_write_marker_exactly_at_expected_count.1 2 3
      (by decide)⟩,
    ⟨by decide, fanInChecks_write_marker_exactly_at_expected_count.2.2.2.2.1 3
      (by decide)⟩⟩

/-- With a probe that reports duration zero, the audio chunking loop never
advances `current_duration`, so it runs forever (out of fuel for every
fuel). -/
theorem audioChunksLoop_zeroProbe_eq_none (d : ℚ) :
    ∀ (fuel : Nat) (cur : ℚ) (fc : Nat) (res : List Nat), cur < d →
      audioChunksLoop zeroProbe d fuel cur fc res = none := by
  intro fuel
  induction fuel with
  | zero => intro cur fc res _; rfl
  | succ n ih =>
      intro cur fc res h
      simp only [audioChunksLoop, if_pos h, zeroProbe, add_zero]
      exact ih cur (fc + 1) (res ++ [fc + 1]) h

/-- **C8**: the claim states that both chunkers discard a zero-duration chunk
and stop, so the loop terminates.  The video chunker does (second conjunct:
it stops immediately, discarding the chunk), but the audio chunker has no
zero-duration guard: at the failing input (audio of duration 2 over limit 1,
every cut probing to duration 0) its loop keeps the chunk, never advances
`current_duration`, and does not terminate for any amount of fuel. -/
theorem audioChunks_zero_duration_probe_loops_forever :
    (∀ fuel : Nat, getAudioChunks zeroProbe 2 1 fuel = none) ∧
      getVideoChunks zeroProbe 2 1 2 5 = some [] := by
  constructor
  · intro fuel
    have h2 : (2 : ℚ) > 1 := by norm_num
    simp only [getAudioChunks, if_pos h2]
    exact audioChunksLoop_zeroProbe_eq_none 2 fuel 0 0 [] (by norm_num)
  · rfl

/-- **C9**: in a batch annotation, a segment whose generative-model call
failed (raised, or returned text the fixed pattern does not match) gets empty
description and keywords, and every row of the batch — hence in particular
every other row — is annotated exactly as its own row and model outcome
dictate, unaffected by the failure. -/
theorem cutAndAnnotate_failure_degrades_only_that_segment
    (parse : String → Option (String × String)) (rows : List AnnotateRow)
    (outcomes : Nat → GenerateOutcome) (i : Nat) (row : AnnotateRow)
    (hrow : rows[i]? = some row)
    (hcut : row.cut.getD true = true)
    (hfail : outcomes i = GenerateOutcome.raised ∨
      ∃ t, outcomes i = GenerateOutcome.text t ∧ parse t = none) :
    (cutAndAnnotateAvSegments parse rows outcomes)[i]? = some ("", "") ∧
      ∀ (j : Nat) (row' : AnnotateRow), rows[j]? = some row' →
        (cutAndAnnotateAvSegments parse rows outcomes)[j]? =
          some (cutAndAnnotateAvSegment parse row' (outcomes j)) := by
  have hget : ∀ (j : Nat) (row' : AnnotateRow), rows[j]? = some row' →
      (cutAndAnnotateAvSegments parse rows outcomes)[j]? =
        some (cutAndAnnotateAvSegment parse row' (outcomes j)) := by
    intro j row' hj
    simp only [cutAndAnnotateAvSegments, List.getElem?_map, List.getElem?_enum,
      hj, Option.map_some']
  refine ⟨?_, hget⟩
  rw [hget i row hrow]
  have hnotfalse : ¬ row.cut.getD true = false := by
    rw [hcut]; simp
  rcases hfail with h | ⟨t, ht, hp⟩
  · simp [cutAndAnnotateAvSegment, hnotfalse, h]
  · simp [cutAndAnnotateAvSegment, hnotfalse, ht, hp]

/-- Witness for `cutAndAnnotate_failure_degrades_only_that_segment`: a
one-row batch whose model call raises yields empty description and
keywords. -/
theorem cutAndAnnotate_failure_witness :
    (cutAndAnnotateAvSegments parseNothing
      [{ av_segment_id := "1", cut := some true, description := "d",
         keywords := "k" }] allCallsRaise)[0]? = some ("", "") :=
  (cutAndAnnotate_failure_degrades_only_that_segment parseNothing
    [{ av_segment_id := "1", cut := some true, description := "d",
       keywords := "k" }] allCallsRaise 0
    { av_segment_id := "1", cut := some true, description := "d",
      keywords := "k" } (by rfl) (by rfl) (Or.inl rfl)).1

/-! ### Decimal round-trip lemmas -/

theorem digitVal?_digitChar : ∀ d : Nat, d < 10 → digitVal? (digitChar d) = some d := by
  decide

theorem digitChar_ne_dot : ∀ d : Nat, d < 10 → digitChar d ≠ '.' := by
  decide

theorem digitChar_ne_minus : ∀ d : Nat, d < 10 → digitChar d ≠ '-' := by
  decide

theorem digitChar_ne_plus : ∀ d : Nat, d < 10 → digitChar d ≠ '+' := by
  decide

theorem natCharsAux_fuel (n : Nat) :
    ∀ f1 f2, n < f1 → n < f2 → natCharsAux f1 n = natCharsAux f2 n := by
  induction n using Nat.strong_induction_on with
  | _ n ih =>
    intro f1 f2 h1 h2
    match f1, f2 with
    | fa + 1, fb + 1 =>
      by_cases hn : n < 10
      · simp [natCharsAux, hn]
      · simp only [natCharsAux, if_neg hn]
        rw [ih (n / 10) (Nat.div_lt_self (by omega) (by omega)) fa fb
          (by omega) (by omega)]

theorem natChars_decomp (n : Nat) (h : 10 ≤ n) :
    natChars n = natChars (n / 10) ++ [digitChar (n % 10)] := by
  have hlt : ¬ n < 10 := by omega
  show natCharsAux (n + 1) n = natChars (n / 10) ++ [digitChar (n % 10)]
  simp only [natCharsAux, if_neg hlt]
  rw [natCharsAux_fuel (n / 10) n (n / 10 + 1)
    (Nat.div_lt_self (by omega) (by omega)) (Nat.lt_succ_self _)]
  rfl

theorem natChars_small (n : Nat) (h : n < 10) : natChars n = [digitChar n] := by
  simp [natChars, natCharsAux, h]

theorem natChars_ne_nil (n : Nat) : natChars n ≠ [] := by
  by_cases h : n < 10
  · rw [natChars_small n h]; simp
  · rw [natChars_decomp n (by omega)]; simp

theorem natChars_mem_digit (n : Nat) :
    ∀ c ∈ natChars n, ∃ d, d < 10 ∧ c = digitChar d := by
  induction n using Nat.strong_induction_on with
  | _ n ih =>
    by_cases h : n < 10
    · rw [natChars_small n h]
      intro c hc
      simp only [List.mem_singleton] at hc
      exact ⟨n, h, hc⟩
    · rw [natChars_decomp n (by omega)]
      intro c hc
      rcases List.mem_append.mp hc with hc | hc
      · exact ih (n / 10) (Nat.div_lt_self (by omega) (by omega)) c hc
      · simp only [List.mem_singleton] at hc
        exact ⟨n % 10, Nat.mod_lt _ (by omega), hc⟩

theorem dot_not_mem_natChars (n : Nat) : '.' ∉ natChars n := by
  intro hmem
  obtain ⟨d, hd, hc⟩ := natChars_mem_digit n '.' hmem
  exact digitChar_ne_dot d hd hc.symm

theorem foldlM_natChars (n : Nat) : ∀ acc : Nat,
    (natChars n).foldlM
      (fun a c => (digitVal? c).map (fun d => a * 10 + d)) acc =
      some (acc * 10 ^ (natChars n).length + n) := by
  induction n using Nat.strong_induction_on with
  | _ n ih =>
    intro acc
    by_cases h : n < 10
    · rw [natChars_small n h]
      simp [List.foldlM, digitVal?_digitChar n h]
    · rw [natChars_decomp n (by omega), List.foldlM_append]
      rw [ih (n / 10) (Nat.div_lt_self (by omega) (by omega)) acc]
      simp only [Option.bind_eq_bind, Option.some_bind, List.foldlM,
        digitVal?_digitChar (n % 10) (Nat.mod_lt _ (by omega)),
        Option.map_some']
      congr 1
      simp only [List.length_append, List.length_singleton]
      ring_nf
      omega

theorem digitsVal?_natChars (n : Nat) : digitsVal? (natChars n) = some n := by
  rw [digitsVal?, if_neg (natChars_ne_nil n), foldlM_natChars n 0]
  simp

theorem natChars_injective : Function.Injective natChars := by
  intro a b h
  have := digitsVal?_natChars a
  rw [h, digitsVal?_natChars b] at this
  exact (Option.some_injective _ this).symm

theorem pyInt?_of_head_not_sign (cs : List Char) (h1 : cs.head? ≠ some '-')
    (h2 : cs.head? ≠ some '+') :
    pyInt? cs = (digitsVal? cs).map (fun n => (n : Int)) := by
  match cs with
  | [] => rfl
  | c :: rest =>
      simp only [List.head?] at h1 h2
      have hc1 : c ≠ '-' := fun h => h1 (by rw [h])
      have hc2 : c ≠ '+' := fun h => h2 (by rw [h])
      simp [pyInt?, if_neg hc1, if_neg hc2]

theorem natChars_head_digit (n : Nat) :
    ∃ d, d < 10 ∧ (natChars n).head? = some (digitChar d) := by
  induction n using Nat.strong_induction_on with
  | _ n ih =>
    by_cases h : n < 10
    · exact ⟨n, h, by rw [natChars_small n h]; rfl⟩
    · obtain ⟨d, hd, hh⟩ := ih (n / 10) (Nat.div_lt_self (by omega) (by omega))
      refine ⟨d, hd, ?_⟩
      rw [natChars_decomp n (by omega), List.head?_append_of_ne_nil]
      · exact hh
      · exact natChars_ne_nil _

theorem pyInt?_natChars (n : Nat) : pyInt? (natChars n) = some (n : Int) := by
  obtain ⟨d, hd, hh⟩ := natChars_head_digit n
  rw [pyInt?_of_head_not_sign]
  · rw [digitsVal?_natChars n]; rfl
  · rw [hh]; simp only [ne_eq, Option.some.injEq]
    exact digitChar_ne_minus d hd
  · rw [hh]; simp only [ne_eq, Option.some.injEq]
    exact digitChar_ne_plus d hd

/-! ### `split('.')` lemmas -/

theorem splitDot_ne_nil (cs : List Char) : splitDot cs ≠ [] := by
  match cs with
  | [] => simp [splitDot]
  | c :: rest =>
      by_cases h : c = '.'
      · simp [splitDot, h]
      · simp only [splitDot, if_neg h]
        match hrec : splitDot rest with
        | [] => simp
        | p :: ps => simp

theorem splitDot_no_dot (cs : List Char) (h : '.' ∉ cs) : splitDot cs = [cs] := by
  induction cs with
  | nil => rfl
  | cons c rest ih =>
      have hc : c ≠ '.' := fun hc => h (by rw [hc]; exact List.mem_cons_self _ _)
      have hrest : '.' ∉ rest := fun hr => h (List.mem_cons_of_mem _ hr)
      simp only [splitDot, if_neg hc, ih hrest]

theorem splitDot_length_ge_two (cs : List Char) (h : '.' ∈ cs) :
    2 ≤ (splitDot cs).length := by
  induction cs with
  | nil => simp at h
  | cons c rest ih =>
      by_cases hc : c = '.'
      · simp only [splitDot, if_pos hc, List.length_cons]
        have := splitDot_ne_nil rest
        have : 1 ≤ (splitDot rest).length := by
          cases hrec : splitDot rest with
          | nil => exact absurd hrec this
          | cons p ps => simp
        omega
      · have hrest : '.' ∈ rest := by
          rcases List.mem_cons.mp h with h | h
          · exact absurd h.symm hc
          · exact h
        have h2 := ih hrest
        simp only [splitDot, if_neg hc]
        cases hrec : splitDot rest with
        | nil => exact absurd hrec (splitDot_ne_nil rest)
        | cons p ps =>
            rw [hrec] at h2
            simpa using h2

/-- **C4**: `_group_consecutive_segments` maps the three documented id lists
to their documented runs, and in general a non-split id `n` chains into a
split id only when that id is exactly `"{n+1}.1"` (`_is_sequential_segments`'
second rule). -/
theorem groupConsecutiveSegments_spec :
    groupConsecutiveSegments ["1", "2", "3", "4.1", "4.2", "4.3", "5"] =
        [("1", "4.3"), ("5", "5")] ∧
    groupConsecutiveSegments ["1", "2", "3", "4.2", "4.3", "4.4", "5"] =
        [("1", "3"), ("4.2", "4.4"), ("5", "5")] ∧
    groupConsecutiveSegments ["5", "1", "2", "3"] =
        [("5", "5"), ("1", "3")] ∧
    ∀ (n : Nat) (next : String), '.' ∈ next.toList →
      isSequentialSegments (String.mk (natChars n)) next = true →
      next.toList = natChars (n + 1) ++ ['.', '1'] := by
  refine ⟨by decide, by decide, by decide, ?_⟩
  intro n next hdot hseq
  have hcur : (String.mk (natChars n)).toList = natChars n := rfl
  unfold isSequentialSegments at hseq
  rw [hcur, splitDot_no_dot (natChars n) (dot_not_mem_natChars n)] at hseq
  have hlast : ([natChars n] : List (List Char)).getLastD [] = natChars n := rfl
  have hlen : ¬ ((1 : Nat) = (splitDot next.toList).length ∧
      ([] : List (List Char)) = (splitDot next.toList).dropLast) := by
    intro ⟨hl, _⟩
    have := splitDot_length_ge_two next.toList hdot
    omega
  have hint : intChars ((n : Int) + 1) = natChars (n + 1) := by
    have hnn : ¬ ((n : Int) + 1 < 0) := by omega
    simp only [intChars, if_neg hnn]
    congr 1
  have hjoin : joinDot [intChars ((n : Int) + 1)] = natChars (n + 1) := by
    rw [hint]
    simp [joinDot, List.intercalate]
  simp only [hlast, pyInt?_natChars n, List.dropLast_single,
    List.length_singleton, List.nil_append] at hseq
  rw [if_neg hlen] at hseq
  simp only [Bool.false_or, hjoin] at hseq
  exact eq_of_beq hseq

/-- Witness for `groupConsecutiveSegments_spec`: the id `"5.1"` is a split id
sequential to `"4"`, and it is exactly `"{4+1}.1"`. -/
theorem groupConsecutiveSegments_spec_witness :
    ('.' ∈ ("5.1" : String).toList) ∧
      ("5.1" : String).toList = natChars (4 + 1) ++ ['.', '1'] :=
  ⟨by decide, groupConsecutiveSegments_spec.2.2.2 4 "5.1" (by decide) (by decide)⟩

/-! ### `min`/`max` folds (Python `min(list)` / `max(list)`) -/

theorem qmin_eq_min : qmin = (min : ℚ → ℚ → ℚ) := by
  funext a b
  rw [qmin, min_def]

theorem qmax_eq_max : qmax = (max : ℚ → ℚ → ℚ) := by
  funext a b
  rw [qmax, max_def]

theorem flushSegment_start_eq (transcriptOf : Nat → String) (index : Nat)
    (visHead : Nat × ℚ × ℚ) (visTail : List (Nat × ℚ × ℚ))
    (audioIds : List Nat) :
    (flushSegment transcriptOf index visHead visTail audioIds).start_s =
      (visTail.map tripleStart).foldl min (tripleStart visHead) := by
  show (visTail.map tripleStart).foldl qmin (tripleStart visHead) = _
  rw [qmin_eq_min]

theorem flushSegment_end_eq (transcriptOf : Nat → String) (index : Nat)
    (visHead : Nat × ℚ × ℚ) (visTail : List (Nat × ℚ × ℚ))
    (audioIds : List Nat) :
    (flushSegment transcriptOf index visHead visTail audioIds).end_s =
      (visTail.map tripleEnd).foldl max (tripleEnd visHead) := by
  show (visTail.map tripleEnd).foldl qmax (tripleEnd visHead) = _
  rw [qmax_eq_max]

theorem foldl_min_le_init (x : ℚ) (xs : List ℚ) : xs.foldl min x ≤ x := by
  induction xs generalizing x with
  | nil => exact le_refl x
  | cons y ys ih => exact le_trans (ih (min x y)) (min_le_left x y)

theorem foldl_min_le_mem (xs : List ℚ) :
    ∀ x y : ℚ, y ∈ xs → xs.foldl min x ≤ y := by
  induction xs with
  | nil => intro x y h; cases h
  | cons z zs ih =>
      intro x y h
      rcases List.mem_cons.mp h with h | h
      · subst h
        exact le_trans (foldl_min_le_init (min x y) zs) (min_le_right x y)
      · exact ih (min x z) y h

theorem foldl_min_mem (xs : List ℚ) : ∀ x : ℚ, xs.foldl min x ∈ x :: xs := by
  induction xs with
  | nil => intro x; simp
  | cons z zs ih =>
      intro x
      rw [List.foldl_cons]
      rcases List.mem_cons.mp (ih (min x z)) with h | h
      · rcases min_choice x z with hc | hc
        · rw [h, hc]; exact List.mem_cons_self _ _
        · rw [h, hc]; exact List.mem_cons_of_mem _ (List.mem_cons_self _ _)
      · exact List.mem_cons_of_mem _ (List.mem_cons_of_mem _ h)

theorem le_foldl_max_init (x : ℚ) (xs : List ℚ) : x ≤ xs.foldl max x := by
  induction xs generalizing x with
  | nil => exact le_refl x
  | cons y ys ih => exact le_trans (le_max_left x y) (ih (max x y))

theorem mem_le_foldl_max (xs : List ℚ) :
    ∀ x y : ℚ, y ∈ xs → y ≤ xs.foldl max x := by
  induction xs with
  | nil => intro x y h; cases h
  | cons z zs ih =>
      intro x y h
      rcases List.mem_cons.mp h with h | h
      · subst h
        exact le_trans (le_max_right x y) (le_foldl_max_init (max x y) zs)
      · exact ih (max x z) y h

theorem foldl_max_mem (xs : List ℚ) : ∀ x : ℚ, xs.foldl max x ∈ x :: xs := by
  induction xs with
  | nil => intro x; simp
  | cons z zs ih =>
      intro x
      rw [List.foldl_cons]
      rcases List.mem_cons.mp (ih (max x z)) with h | h
      · rcases max_choice x z with hc | hc
        · rw [h, hc]; exact List.mem_cons_self _ _
        · rw [h, hc]; exact List.mem_cons_of_mem _ (List.mem_cons_self _ _)
      · exact List.mem_cons_of_mem _ (List.mem_cons_of_mem _ h)

/-! ### The optimiser's sweep flushes a partition of its input -/

/-- Every run of the optimiser loop emits `acc.out` followed by the flushes of
a list of groups whose accumulated triples concatenate, in order, to the
accumulator's triples followed by the remaining shots' triples. -/
theorem optimiserLoop_partition (transcriptOf : Nat → String) :
    ∀ (shots : List VisualShot) (acc : OptimiserAcc),
      ∃ gs : List FlushGroup,
        optimiserLoop transcriptOf shots acc =
          acc.out ++ segmentsOfGroups transcriptOf acc.index gs ∧
        (gs.map groupTriples).flatten =
          (acc.visHead :: acc.visTail) ++ shots.map shotTriple := by
  intro shots
  induction shots with
  | nil =>
      intro acc
      exact ⟨[⟨acc.visHead, acc.visTail, acc.audioIds⟩], rfl, by
        simp [groupTriples]⟩
  | cons s rest ih =>
      intro acc
      by_cases hc : (s.audio_segment_ids.any (fun a => acc.audioIds.contains a)
          || ((s.audio_segment_ids.isEmpty && decide (s.duration_s ≤ 1))
            && acc.audioIds.isEmpty && acc.isLastShotShort)) = true
      · obtain ⟨gs, h1, h2⟩ := ih
          { acc with
            visTail := acc.visTail ++ [shotTriple s]
            audioIds := idUnion acc.audioIds s.audio_segment_ids
            isLastShotShort :=
              s.audio_segment_ids.isEmpty && decide (s.duration_s ≤ 1) }
        refine ⟨gs, ?_, ?_⟩
        · rw [optimiserLoop, if_pos hc]
          exact h1
        · rw [h2]
          simp
      · obtain ⟨gs, h1, h2⟩ := ih
          { visHead := shotTriple s
            visTail := []
            audioIds := s.audio_segment_ids.dedup
            index := acc.index + 1
            isLastShotShort :=
              s.audio_segment_ids.isEmpty && decide (s.duration_s ≤ 1)
            out := acc.out ++ [flushSegment transcriptOf acc.index acc.visHead
              acc.visTail acc.audioIds] }
        refine ⟨⟨acc.visHead, acc.visTail, acc.audioIds⟩ :: gs, ?_, ?_⟩
        · rw [optimiserLoop, if_neg hc, h1]
          simp [segmentsOfGroups, groupTriples]
        · rw [List.map_cons, List.flatten_cons, h2]
          simp [groupTriples]

theorem foldl_min_eq_of_least (x z : ℚ) (xs : List ℚ) (hz : z ∈ x :: xs)
    (hlb : ∀ y ∈ x :: xs, z ≤ y) : xs.foldl min x = z := by
  refine le_antisymm ?_ (hlb _ (foldl_min_mem xs x))
  rcases List.mem_cons.mp hz with h | h
  · rw [h]; exact foldl_min_le_init x xs
  · exact foldl_min_le_mem xs x z h

theorem foldl_max_eq_of_greatest (x z : ℚ) (xs : List ℚ) (hz : z ∈ x :: xs)
    (hub : ∀ y ∈ x :: xs, y ≤ z) : xs.foldl max x = z := by
  refine le_antisymm (hub _ (foldl_max_mem xs x)) ?_
  rcases List.mem_cons.mp hz with h | h
  · rw [h]; exact le_foldl_max_init x xs
  · exact mem_le_foldl_max xs x z h

theorem segmentsOfGroups_length (transcriptOf : Nat → String) :
    ∀ (gs : List FlushGroup) (idx : Nat),
      (segmentsOfGroups transcriptOf idx gs).length = gs.length := by
  intro gs
  induction gs with
  | nil => intro idx; rfl
  | cons g gs ih => intro idx; simp [segmentsOfGroups, ih (idx + 1)]

theorem segmentsOfGroups_get (transcriptOf : Nat → String) :
    ∀ (gs : List FlushGroup) (idx k : Nat) (hk : k < gs.length)
      (hk' : k < (segmentsOfGroups transcriptOf idx gs).length),
      (segmentsOfGroups transcriptOf idx gs).get ⟨k, hk'⟩ =
        flushSegment transcriptOf (idx + k) (gs.get ⟨k, hk⟩).visHead
          (gs.get ⟨k, hk⟩).visTail (gs.get ⟨k, hk⟩).audioIds := by
  intro gs
  induction gs with
  | nil => intro idx k hk; simp at hk
  | cons g gs ih =>
      intro idx k hk hk'
      cases k with
      | zero => simp [segmentsOfGroups]
      | succ m =>
          have hm : m < gs.length := by simpa using hk
          have hm' : m < (segmentsOfGroups transcriptOf (idx + 1) gs).length := by
            rw [segmentsOfGroups_length]; exact hm
          have := ih (idx + 1) m hm hm'
          simp only [segmentsOfGroups, List.get_cons_succ]
          rw [this]
          congr 1
          omega

theorem segmentsOfGroups_map_id (transcriptOf : Nat → String) :
    ∀ (gs : List FlushGroup) (idx : Nat),
      (segmentsOfGroups transcriptOf idx gs).map (fun s => s.av_segment_id) =
        (List.range gs.length).map
          (fun k => String.mk (natChars (idx + k + 1))) := by
  intro gs
  induction gs with
  | nil => intro idx; rfl
  | cons g gs ih =>
      intro idx
      simp only [segmentsOfGroups, List.map_cons, List.length_cons,
        List.range_succ_eq_map, List.map_map]
      refine congrArg₂ List.cons rfl ?_
      rw [ih (idx + 1)]
      apply List.map_congr_left
      intro k _
      simp only [Function.comp_apply]
      congr 2
      omega

/-! ### Contiguous chains of time intervals -/

theorem chain_bounds (ts : List (Nat × ℚ × ℚ)) :
    ∀ t : Nat × ℚ × ℚ,
      List.Chain' (fun a b => tripleEnd a = tripleStart b) (t :: ts) →
      (∀ u ∈ t :: ts, tripleStart u < tripleEnd u) →
      ∀ u ∈ t :: ts, tripleStart t ≤ tripleStart u ∧
        tripleEnd u ≤ tripleEnd ((t :: ts).getLast (by simp)) := by
  induction ts with
  | nil =>
      intro t _ _ u hu
      simp only [List.mem_singleton] at hu
      subst hu
      exact ⟨le_refl _, le_refl _⟩
  | cons v vs ih =>
      intro t hc hpos u hu
      have hlink : tripleEnd t = tripleStart v := (List.chain'_cons.mp hc).1
      have hcv : List.Chain' (fun a b => tripleEnd a = tripleStart b) (v :: vs) :=
        (List.chain'_cons.mp hc).2
      have hposv : ∀ w ∈ v :: vs, tripleStart w < tripleEnd w :=
        fun w hw => hpos w (List.mem_cons_of_mem _ hw)
      have hlast : (t :: v :: vs).getLast (by simp) =
          (v :: vs).getLast (by simp) := List.getLast_cons (by simp)
      rcases List.mem_cons.mp hu with hu | hu
      · subst hu
        refine ⟨le_refl _, ?_⟩
        have h1 : tripleEnd u = tripleStart v := hlink
        have h2 := (ih v hcv hposv v (List.mem_cons_self _ _)).2
        have h3 : tripleStart v < tripleEnd v := hposv v (List.mem_cons_self _ _)
        rw [hlast, h1]
        exact le_trans (le_of_lt h3) h2
      · obtain ⟨hs, he⟩ := ih v hcv hposv u hu
        refine ⟨?_, by rw [hlast]; exact he⟩
        have : tripleStart t < tripleEnd t := hpos t (List.mem_cons_self _ _)
        rw [hlink] at this
        exact le_trans (le_of_lt this) hs

theorem biUnion_cons {α : Type} (a : α) (l : List α) (f : α → Set ℚ) :
    (⋃ x ∈ (a :: l), f x) = f a ∪ ⋃ x ∈ l, f x := by
  ext q
  simp only [Set.mem_iUnion, Set.mem_union, List.mem_cons, exists_prop]
  constructor
  · rintro ⟨x, hx | hx, hq⟩
    · subst hx; exact Or.inl hq
    · exact Or.inr ⟨x, hx, hq⟩
  · rintro (hq | ⟨x, hx, hq⟩)
    · exact ⟨a, Or.inl rfl, hq⟩
    · exact ⟨x, Or.inr hx, hq⟩

theorem biUnion_flatten {α : Type} (L : List (List α)) (f : α → Set ℚ) :
    (⋃ x ∈ L.flatten, f x) = ⋃ l ∈ L, ⋃ x ∈ l, f x := by
  ext q
  simp only [Set.mem_iUnion, List.mem_flatten, exists_prop]
  constructor
  · rintro ⟨x, ⟨l, hl, hx⟩, hq⟩
    exact ⟨l, hl, x, hx, hq⟩
  · rintro ⟨l, hl, x, hx, hq⟩
    exact ⟨x, ⟨l, hl, hx⟩, hq⟩

theorem chain_union (ts : List (Nat × ℚ × ℚ)) :
    ∀ t : Nat × ℚ × ℚ,
      List.Chain' (fun a b => tripleEnd a = tripleStart b) (t :: ts) →
      (∀ u ∈ t :: ts, tripleStart u < tripleEnd u) →
      (⋃ u ∈ (t :: ts), Set.Icc (tripleStart u) (tripleEnd u)) =
        Set.Icc (tripleStart t)
          (tripleEnd ((t :: ts).getLast (by simp))) := by
  induction ts with
  | nil =>
      intro t _ _
      simp [biUnion_cons]
  | cons v vs ih =>
      intro t hc hpos
      have hlink : tripleEnd t = tripleStart v := (List.chain'_cons.mp hc).1
      have hcv : List.Chain' (fun a b => tripleEnd a = tripleStart b) (v :: vs) :=
        (List.chain'_cons.mp hc).2
      have hposv : ∀ w ∈ v :: vs, tripleStart w < tripleEnd w :=
        fun w hw => hpos w (List.mem_cons_of_mem _ hw)
      have hlast : (t :: v :: vs).getLast (by simp) =
          (v :: vs).getLast (by simp) := List.getLast_cons (by simp)
      rw [biUnion_cons, ih v hcv hposv, hlast]
      have h1 : tripleStart t ≤ tripleEnd t :=
        le_of_lt (hpos t (List.mem_cons_self _ _))
      have h2 : tripleStart v ≤
          tripleEnd ((v :: vs).getLast (by simp)) := by
        have h3 : tripleStart v < tripleEnd v := hposv v (List.mem_cons_self _ _)
        have h4 := (chain_bounds vs v hcv hposv v (List.mem_cons_self _ _)).2
        exact le_trans (le_of_lt h3) h4
      rw [hlink] at h1
      rw [hlink]
      exact Set.Icc_union_Icc_eq_Icc h1 h2

/-- On a group whose accumulated triples form a contiguous chain of positive
intervals, the flush's `min` of starts is the first triple's start. -/
theorem flushSegment_start_of_chain (transcriptOf : Nat → String) (idx : Nat)
    (g : FlushGroup)
    (hc : List.Chain' (fun a b => tripleEnd a = tripleStart b) (groupTriples g))
    (hpos : ∀ u ∈ groupTriples g, tripleStart u < tripleEnd u) :
    (flushSegment transcriptOf idx g.visHead g.visTail g.audioIds).start_s =
      tripleStart g.visHead := by
  have hb := chain_bounds g.visTail g.visHead hc hpos
  rw [flushSegment_start_eq]
  apply foldl_min_eq_of_least
  · exact List.mem_cons_self _ _
  · intro y hy
    rcases List.mem_cons.mp hy with hy | hy
    · rw [hy]
    · obtain ⟨u, hu, huy⟩ := List.mem_map.mp hy
      rw [← huy]
      exact (hb u (List.mem_cons_of_mem _ hu)).1

/-- On such a group, the flush's `max` of ends is the last triple's end. -/
theorem flushSegment_end_of_chain (transcriptOf : Nat → String) (idx : Nat)
    (g : FlushGroup)
    (hc : List.Chain' (fun a b => tripleEnd a = tripleStart b) (groupTriples g))
    (hpos : ∀ u ∈ groupTriples g, tripleStart u < tripleEnd u) :
    (flushSegment transcriptOf idx g.visHead g.visTail g.audioIds).end_s =
      tripleEnd ((groupTriples g).getLast (by simp [groupTriples])) := by
  have hb := chain_bounds g.visTail g.visHead hc hpos
  rw [flushSegment_end_eq]
  apply foldl_max_eq_of_greatest
  · have hmem : (groupTriples g).getLast (by simp [groupTriples]) ∈
        groupTriples g := List.getLast_mem _
    rcases List.mem_cons.mp hmem with h | h
    · rw [congrArg tripleEnd h]; exact List.mem_cons_self _ _
    · exact List.mem_cons_of_mem _ (List.mem_map_of_mem tripleEnd h)
  · intro y hy
    rcases List.mem_cons.mp hy with hy | hy
    · rw [hy]
      exact (hb g.visHead (List.mem_cons_self _ _)).2
    · obtain ⟨u, hu, huy⟩ := List.mem_map.mp hy
      rw [← huy]
      exact (hb u (List.mem_cons_of_mem _ hu)).2

/-- On contiguous positive groups linked end-to-start, the flushed segments
are contiguous. -/
theorem segmentsOfGroups_contiguous (transcriptOf : Nat → String) :
    ∀ (gs : List FlushGroup) (idx : Nat),
      (∀ g ∈ gs, List.Chain' (fun a b => tripleEnd a = tripleStart b)
        (groupTriples g)) →
      (∀ g ∈ gs, ∀ u ∈ groupTriples g, tripleStart u < tripleEnd u) →
      List.Chain' (fun l1 l2 => ∀ x ∈ l1.getLast?, ∀ y ∈ l2.head?,
        tripleEnd x = tripleStart y) (gs.map groupTriples) →
      List.Chain' (fun a b => a.end_s = b.start_s)
        (segmentsOfGroups transcriptOf idx gs) := by
  intro gs
  induction gs with
  | nil => intro idx _ _ _; simp [segmentsOfGroups]
  | cons g1 rest ih =>
      intro idx hcg hpos hlink
      cases rest with
      | nil => simp [segmentsOfGroups]
      | cons g2 rest2 =>
          show List.Chain' (fun a b => a.end_s = b.start_s)
            (flushSegment transcriptOf idx g1.visHead g1.visTail g1.audioIds ::
              segmentsOfGroups transcriptOf (idx + 1) (g2 :: rest2))
          have htail := ih (idx + 1)
            (fun g hg => hcg g (List.mem_cons_of_mem _ hg))
            (fun g hg => hpos g (List.mem_cons_of_mem _ hg))
            (by
              simp only [List.map_cons] at hlink ⊢
              exact (List.chain'_cons.mp hlink).2)
          show List.Chain' (fun a b => a.end_s = b.start_s)
            (flushSegment transcriptOf idx g1.visHead g1.visTail g1.audioIds ::
              flushSegment transcriptOf (idx + 1) g2.visHead g2.visTail
                g2.audioIds :: segmentsOfGroups transcriptOf (idx + 1 + 1) rest2)
          refine List.chain'_cons.mpr ⟨?_, htail⟩
          rw [flushSegment_end_of_chain transcriptOf idx g1
              (hcg g1 (List.mem_cons_self _ _))
              (hpos g1 (List.mem_cons_self _ _)),
            flushSegment_start_of_chain transcriptOf (idx + 1) g2
              (hcg g2 (List.mem_cons_of_mem _ (List.mem_cons_self _ _)))
              (hpos g2 (List.mem_cons_of_mem _ (List.mem_cons_self _ _)))]
          have hl := (List.chain'_cons.mp
            (by simpa only [List.map_cons] using hlink)).1
          exact hl ((groupTriples g1).getLast (by simp [groupTriples]))
            (List.getLast?_eq_getLast_of_ne_nil (by simp [groupTriples]))
            g2.visHead rfl

/-- On such groups, the flushed segments' span union is the union of the
groups' member spans. -/
theorem segmentsOfGroups_span (transcriptOf : Nat → String) :
    ∀ (gs : List FlushGroup) (idx : Nat),
      (∀ g ∈ gs, List.Chain' (fun a b => tripleEnd a = tripleStart b)
        (groupTriples g)) →
      (∀ g ∈ gs, ∀ u ∈ groupTriples g, tripleStart u < tripleEnd u) →
      segmentSpanUnion (segmentsOfGroups transcriptOf idx gs) =
        ⋃ l ∈ gs.map groupTriples, ⋃ u ∈ l,
          Set.Icc (tripleStart u) (tripleEnd u) := by
  intro gs
  induction gs with
  | nil => intro idx _ _; simp [segmentSpanUnion, segmentsOfGroups]
  | cons g rest ih =>
      intro idx hcg hpos
      show segmentSpanUnion
        (flushSegment transcriptOf idx g.visHead g.visTail g.audioIds ::
          segmentsOfGroups transcriptOf (idx + 1) rest) = _
      rw [segmentSpanUnion, biUnion_cons, List.map_cons, biUnion_cons]
      have hg := hcg g (List.mem_cons_self _ _)
      have hp := hpos g (List.mem_cons_self _ _)
      rw [flushSegment_start_of_chain transcriptOf idx g hg hp,
        flushSegment_end_of_chain transcriptOf idx g hg hp]
      have hgu := chain_union g.visTail g.visHead hg hp
      rw [show (groupTriples g).getLast (by simp [groupTriples]) =
          (g.visHead :: g.visTail).getLast (by simp) from rfl, ← hgu]
      have := ih (idx + 1) (fun g' hg' => hcg g' (List.mem_cons_of_mem _ hg'))
        (fun g' hg' => hpos g' (List.mem_cons_of_mem _ hg'))
      rw [segmentSpanUnion] at this
      rw [this]
      rfl

/-- A contiguous list of segments with positive spans has strictly increasing
starts. -/
theorem chain_lt_of_chain_eq (l : List AvSegment)
    (hc : List.Chain' (fun a b => a.end_s = b.start_s) l)
    (hpos : ∀ s ∈ l, s.start_s < s.end_s) :
    List.Chain' (fun a b => a.start_s < b.start_s) l := by
  induction l with
  | nil => simp
  | cons a l ih =>
      rw [List.chain'_cons'] at hc ⊢
      refine ⟨?_, ih hc.2 (fun s hs => hpos s (List.mem_cons_of_mem _ hs))⟩
      intro y hy
      have h1 := hc.1 y hy
      have h2 := hpos a (List.mem_cons_self _ _)
      rw [h1] at h2
      exact h2

theorem biUnion_map_shotTriple (shots : List VisualShot) :
    (⋃ t ∈ shots.map shotTriple, Set.Icc (tripleStart t) (tripleEnd t)) =
      shotSpanUnion shots := by
  ext q
  simp only [shotSpanUnion, Set.mem_iUnion, List.mem_map, exists_prop]
  constructor
  · rintro ⟨t, ⟨s, hs, rfl⟩, hq⟩
    exact ⟨s, hs, hq⟩
  · rintro ⟨s, hs, hq⟩
    exact ⟨shotTriple s, ⟨s, hs, rfl⟩, hq⟩

/-- **C1 (amended)**: on every non-empty input of contiguous shots with
positive spans (each shot's end is the next shot's start — which also makes
the list sorted), the optimiser's sweep succeeds, its output is the flush, in
order, of a partition of the input shots into consecutive non-empty groups (no
shot dropped or duplicated): segment `k` carries exactly group `k`'s shot ids,
its `start_s` is the minimum of the group's starts, its `end_s` the maximum of
the group's ends, and its id is `str(k + 1)`; the segments are contiguous,
strictly sorted by `start_s`, and their span union equals the shots' span
union. -/
theorem optimiser_output_spec (transcriptOf : Nat → String)
    (shots : List VisualShot) (hne : shots ≠ [])
    (hchain : List.Chain' (fun a b => a.end_s = b.start_s) shots)
    (hpos : ∀ s ∈ shots, s.start_s < s.end_s) :
    ∃ (res : List AvSegment) (gs : List FlushGroup),
      createOptimisedAvSegments transcriptOf shots = some res ∧
      res = segmentsOfGroups transcriptOf 0 gs ∧
      (gs.map groupTriples).flatten = shots.map shotTriple ∧
      res.map (fun s => s.av_segment_id) =
        (List.range res.length).map (fun k => String.mk (natChars (k + 1))) ∧
      (∀ (k : Nat) (hk : k < gs.length) (hk' : k < res.length),
        (res.get ⟨k, hk'⟩).visual_segment_ids =
          (groupTriples (gs.get ⟨k, hk⟩)).map (fun t => t.1) ∧
        (res.get ⟨k, hk'⟩).start_s ∈
          (groupTriples (gs.get ⟨k, hk⟩)).map tripleStart ∧
        (∀ t ∈ groupTriples (gs.get ⟨k, hk⟩),
          (res.get ⟨k, hk'⟩).start_s ≤ tripleStart t) ∧
        (res.get ⟨k, hk'⟩).end_s ∈
          (groupTriples (gs.get ⟨k, hk⟩)).map tripleEnd ∧
        (∀ t ∈ groupTriples (gs.get ⟨k, hk⟩),
          tripleEnd t ≤ (res.get ⟨k, hk'⟩).end_s)) ∧
      List.Chain' (fun a b => a.end_s = b.start_s) res ∧
      List.Pairwise (fun a b => a.start_s < b.start_s) res ∧
      segmentSpanUnion res = shotSpanUnion shots := by
  match shots, hne with
  | s0 :: rest, _ =>
    obtain ⟨gs, h1, h2⟩ := optimiserLoop_partition transcriptOf rest
      { visHead := shotTriple s0
        visTail := []
        audioIds := s0.audio_segment_ids.dedup
        index := 0
        isLastShotShort :=
          s0.audio_segment_ids.isEmpty && decide (s0.duration_s ≤ 1)
        out := [] }
    simp only [List.nil_append] at h1
    have h2' : (gs.map groupTriples).flatten = (s0 :: rest).map shotTriple := by
      rw [h2]; rfl
    -- the joined triple list inherits the chain and positivity facts
    have hchainT : List.Chain' (fun a b => tripleEnd a = tripleStart b)
        ((s0 :: rest).map shotTriple) := by
      rw [List.chain'_map]
      exact hchain
    have hposT : ∀ u ∈ (s0 :: rest).map shotTriple,
        tripleStart u < tripleEnd u := by
      intro u hu
      obtain ⟨s, hs, rfl⟩ := List.mem_map.mp hu
      exact hpos s hs
    have hnil : ([] : List (Nat × ℚ × ℚ)) ∉ gs.map groupTriples := by
      intro hmem
      obtain ⟨g, _, hg⟩ := List.mem_map.mp hmem
      exact (by simp [groupTriples] : groupTriples g ≠ []) hg
    have hflat := (List.chain'_flatten hnil).mp (h2' ▸ hchainT)
    have hGroupChains : ∀ g ∈ gs,
        List.Chain' (fun a b => tripleEnd a = tripleStart b)
          (groupTriples g) := by
      intro g hg
      exact hflat.1 (groupTriples g) (List.mem_map_of_mem _ hg)
    have hGroupPos : ∀ g ∈ gs, ∀ u ∈ groupTriples g,
        tripleStart u < tripleEnd u := by
      intro g hg u hu
      apply hposT
      rw [← h2']
      exact List.mem_flatten.mpr ⟨groupTriples g, List.mem_map_of_mem _ hg, hu⟩
    have hcontig : List.Chain' (fun a b => a.end_s = b.start_s)
        (segmentsOfGroups transcriptOf 0 gs) :=
      segmentsOfGroups_contiguous transcriptOf gs 0 hGroupChains hGroupPos
        hflat.2
    have hsegpos : ∀ seg ∈ segmentsOfGroups transcriptOf 0 gs,
        seg.start_s < seg.end_s := by
      intro seg hseg
      obtain ⟨⟨k, hk'⟩, rfl⟩ := List.mem_iff_get.mp hseg
      have hk : k < gs.length := by
        rw [← segmentsOfGroups_length transcriptOf gs 0]; exact hk'
      rw [segmentsOfGroups_get transcriptOf gs 0 k hk hk']
      set g := gs.get ⟨k, hk⟩ with hgdef
      have hg : g ∈ gs := by rw [hgdef]; exact List.get_mem gs k hk
      rw [flushSegment_start_of_chain transcriptOf (0 + k) g
          (hGroupChains g hg) (hGroupPos g hg),
        flushSegment_end_of_chain transcriptOf (0 + k) g
          (hGroupChains g hg) (hGroupPos g hg)]
      have hlastmem : (groupTriples g).getLast (by simp [groupTriples]) ∈
          groupTriples g := List.getLast_mem _
      have hb := chain_bounds g.visTail g.visHead (hGroupChains g hg)
        (hGroupPos g hg)
      calc tripleStart g.visHead
          < tripleEnd g.visHead :=
            hGroupPos g hg g.visHead (List.mem_cons_self _ _)
        _ ≤ tripleEnd ((groupTriples g).getLast (by simp [groupTriples])) :=
            (hb g.visHead (List.mem_cons_self _ _)).2
    refine ⟨segmentsOfGroups transcriptOf 0 gs, gs, ?_, rfl, h2', ?_, ?_, ?_,
      ?_, ?_⟩
    · rw [createOptimisedAvSegments, h1]
    · rw [segmentsOfGroups_map_id transcriptOf gs 0,
        segmentsOfGroups_length transcriptOf gs 0]
      apply List.map_congr_left
      intro k _
      congr 2
      omega
    · intro k hk hk'
      rw [segmentsOfGroups_get transcriptOf gs 0 k hk hk']
      set g := gs.get ⟨k, hk⟩ with hgdef
      refine ⟨rfl, ?_, ?_, ?_, ?_⟩
      · rw [flushSegment_start_eq]
        simp only [groupTriples, List.map_cons]
        exact foldl_min_mem _ _
      · intro t ht
        rw [flushSegment_start_eq]
        rcases List.mem_cons.mp ht with ht | ht
        · rw [ht]
          exact foldl_min_le_init _ _
        · exact foldl_min_le_mem _ _ _ (List.mem_map_of_mem tripleStart ht)
      · rw [flushSegment_end_eq]
        simp only [groupTriples, List.map_cons]
        exact foldl_max_mem _ _
      · intro t ht
        rw [flushSegment_end_eq]
        rcases List.mem_cons.mp ht with ht | ht
        · rw [ht]
          exact le_foldl_max_init _ _
        · exact mem_le_foldl_max _ _ _ (List.mem_map_of_mem tripleEnd ht)
    · exact hcontig
    · have hlt := chain_lt_of_chain_eq _ hcontig hsegpos
      haveI : IsTrans AvSegment (fun a b => a.start_s < b.start_s) :=
        ⟨fun _ _ _ hab hbc => lt_trans hab hbc⟩
      exact List.chain'_iff_pairwise.mp hlt
    · rw [segmentsOfGroups_span transcriptOf gs 0 hGroupChains hGroupPos,
        ← biUnion_flatten, h2', biUnion_map_shotTriple]

/-- Witness for `optimiser_output_spec`: a contiguous two-shot input is
accepted by the sweep. -/
theorem optimiser_output_spec_witness :
    createOptimisedAvSegments emptyTranscript
      [⟨1, [1], 0, 1, 1⟩, ⟨2, [2], 1, 2, 1⟩] ≠ none := by
  obtain ⟨res, gs, hsome, -⟩ := optimiser_output_spec emptyTranscript
    [⟨1, [1], 0, 1, 1⟩, ⟨2, [2], 1, 2, 1⟩] (by decide)
    (by
      refine List.chain'_cons.mpr ⟨?_, ?_⟩
      · norm_num
      · simp)
    (by
      intro s hs
      rcases List.mem_cons.mp hs with rfl | hs
      · norm_num
      · rcases List.mem_cons.mp hs with rfl | hs
        · norm_num
        · cases hs)
  rw [hsome]
  simp

/-- **C1 (counterexample)**: the claim's hypothesis is only that the input is
non-empty and sorted.  Two sorted but non-contiguous shots refute it twice
over: with distinct audio ids the two output segments are not contiguous
(`end_s 1 ≠ start_s 2`), and with two short silent shots the single merged
segment spans `[0, 3]`, so the output span union strictly exceeds the input
shots' span union (it contains `3/2`, which lies in no input shot). -/
theorem optimiser_sorted_input_counterexample :
    createOptimisedAvSegments emptyTranscript
        [⟨1, [1], 0, 1, 1⟩, ⟨2, [2], 2, 3, 1⟩] =
      some [⟨"1", [1], [1], 0, 1, 1, [""]⟩, ⟨"2", [2], [2], 2, 3, 1, [""]⟩] ∧
    ¬ List.Chain' (fun a b => a.end_s = b.start_s)
        [(⟨"1", [1], [1], 0, 1, 1, [""]⟩ : AvSegment),
          ⟨"2", [2], [2], 2, 3, 1, [""]⟩] ∧
    createOptimisedAvSegments emptyTranscript
        [⟨1, [], 0, 1, 1⟩, ⟨2, [], 2, 3, 1⟩] =
      some [⟨"1", [1, 2], [], 0, 3, 3, []⟩] ∧
    ((3 / 2 : ℚ) ∈
      segmentSpanUnion [⟨"1", [1, 2], [], 0, 3, 3, []⟩]) ∧
    ((3 / 2 : ℚ) ∉ shotSpanUnion [⟨1, [], 0, 1, 1⟩, ⟨2, [], 2, 3, 1⟩]) := by
  refine ⟨?_, ?_, ?_, ?_, ?_⟩
  · norm_num [createOptimisedAvSegments, optimiserLoop, flushSegment,
      shotTriple, tripleStart, tripleEnd, idUnion, qmin, qmax, emptyTranscript,
      natChars, natCharsAux, digitChar, AvSegment.mk.injEq]
  · intro h
    have h1 := (List.chain'_cons.mp h).1
    norm_num at h1
  · norm_num [createOptimisedAvSegments, optimiserLoop, flushSegment,
      shotTriple, tripleStart, tripleEnd, idUnion, qmin, qmax, emptyTranscript,
      natChars, natCharsAux, digitChar, AvSegment.mk.injEq]
  · simp only [segmentSpanUnion, Set.mem_iUnion, List.mem_singleton,
      exists_prop]
    exact ⟨⟨"1", [1, 2], [], 0, 3, 3, []⟩, rfl, by norm_num [Set.mem_Icc]⟩
  · simp only [shotSpanUnion, Set.mem_iUnion, List.mem_cons,
      List.mem_singleton, exists_prop, not_exists]
    rintro s ⟨hs | hs | hs, hq⟩
    · subst hs
      simp only [Set.mem_Icc] at hq
      norm_num at hq
    · subst hs
      simp only [Set.mem_Icc] at hq
      norm_num at hq
    · cases hs

/-! ### The duration invariant -/

theorem optimiserLoop_duration (transcriptOf : Nat → String) :
    ∀ (shots : List VisualShot) (acc : OptimiserAcc),
      (∀ seg ∈ acc.out, seg.duration_s = seg.end_s - seg.start_s) →
      ∀ seg ∈ optimiserLoop transcriptOf shots acc,
        seg.duration_s = seg.end_s - seg.start_s := by
  intro shots
  induction shots with
  | nil =>
      intro acc hout seg hseg
      rcases List.mem_append.mp hseg with h | h
      · exact hout seg h
      · rw [List.mem_singleton.mp h]
        rfl
  | cons s rest ih =>
      intro acc hout seg hseg
      rw [optimiserLoop] at hseg
      by_cases hc : (s.audio_segment_ids.any (fun a => acc.audioIds.contains a)
          || ((s.audio_segment_ids.isEmpty && decide (s.duration_s ≤ 1))
            && acc.audioIds.isEmpty && acc.isLastShotShort)) = true
      · rw [if_pos hc] at hseg
        exact ih
          { acc with
            visTail := acc.visTail ++ [shotTriple s]
            audioIds := idUnion acc.audioIds s.audio_segment_ids
            isLastShotShort :=
              s.audio_segment_ids.isEmpty && decide (s.duration_s ≤ 1) }
          hout seg hseg
      · rw [if_neg hc] at hseg
        refine ih _ ?_ seg hseg
        intro seg' hseg'
        rcases List.mem_append.mp hseg' with h | h
        · exact hout seg' h
        · rw [List.mem_singleton.mp h]
          rfl

/-- **C7**: `duration_s == end_s - start_s` holds for every segment the
Optimizer emits and for every row `_finalise_split` returns (it recomputes
every row's duration after applying the marker groups), for all inputs. -/
theorem duration_invariant :
    (∀ (transcriptOf : Nat → String) (shots : List VisualShot)
        (res : List AvSegment),
      createOptimisedAvSegments transcriptOf shots = some res →
      ∀ seg ∈ res, seg.duration_s = seg.end_s - seg.start_s) ∧
    (∀ (avSegments : List SplitSegment)
        (avSegmentMarkers : List AvSegmentSplitMarker),
      ∀ seg ∈ finaliseSplit avSegments avSegmentMarkers,
        seg.duration_s = seg.end_s - seg.start_s) := by
  constructor
  · intro transcriptOf shots res hres seg hseg
    match shots, hres with
    | s0 :: rest, hres =>
      rw [createOptimisedAvSegments] at hres
      have hres' := Option.some_injective _ hres
      rw [← hres'] at hseg
      exact optimiserLoop_duration transcriptOf rest _ (by intro s h; cases h)
        seg hseg
  · intro avSegments avSegmentMarkers seg hseg
    rw [finaliseSplit] at hseg
    have hmem := List.mem_mergeSort.mp hseg
    obtain ⟨s, _, rfl⟩ := List.mem_map.mp hmem
    rfl

/-- Witness for `duration_invariant`: the single row returned by a markerless
split of one segment (`start 1`, `end 3`, stale stored duration `5`) carries
the recomputed duration `3 - 1`. -/
theorem duration_invariant_witness :
    ({ av_segment_id := "s", visual_segment_ids := [], audio_segment_ids := [],
       start_s := 1, end_s := 3, duration_s := 3 - 1, transcript := [],
       labels := [], objects := [], logos := [], text := [],
       cut := false } : SplitSegment).duration_s =
      ({ av_segment_id := "s", visual_segment_ids := [],
         audio_segment_ids := [], start_s := 1, end_s := 3,
         duration_s := 3 - 1, transcript := [], labels := [], objects := [],
         logos := [], text := [],
         cut := false } : SplitSegment).end_s -
        ({ av_segment_id := "s", visual_segment_ids := [],
           audio_segment_ids := [], start_s := 1, end_s := 3,
           duration_s := 3 - 1, transcript := [], labels := [], objects := [],
           logos := [], text := [],
           cut := false } : SplitSegment).start_s :=
  duration_invariant.2
    [{ av_segment_id := "s", visual_segment_ids := [], audio_segment_ids := [],
       start_s := 1, end_s := 3, duration_s := 5, transcript := [],
       labels := [], objects := [], logos := [], text := [], cut := true }] []
    _ (by simp [finaliseSplit, groupMarkers, withCutFalse,
      withRecomputedDuration])

/-! ### Entity attachment -/

theorem isPySetList_reversedSetList : IsPySetList reversedSetList := by
  intro l
  constructor
  · exact List.nodup_reverse.mpr (List.nodup_dedup l)
  · intro x
    rw [reversedSetList, List.mem_reverse, List.mem_dedup]

/-- **C5 (counterexample)**: two entities (values `"a"` at confidence 9 and
`"b"` at confidence 8, threshold 7) overlapping the one segment `"1"` come out
of `_get_entities` as `["b", "a"]` under a membership-valid enumeration of the
final `set(...)` — Python's hash-seeded set iteration order — refuting the
claim that the attached list is sorted in descending confidence order (which
would require `["a", "b"]`). -/
theorem getEntities_set_order_counterexample :
    IsPySetList reversedSetList ∧
    getEntities 7 reversedSetList
        (buildEntityRows [⟨"a", 1, 2, 9⟩, ⟨"b", 1, 2, 8⟩]
          [⟨"1", [], [], 0, 10, 10, []⟩]) "1" = ["b", "a"] ∧
    (["b", "a"] : List String) ≠ ["a", "b"] := by
  refine ⟨isPySetList_reversedSetList, ?_, by decide⟩
  have hb : buildEntityRows [⟨"a", 1, 2, 9⟩, ⟨"b", 1, 2, 8⟩]
      [⟨"1", [], [], 0, 10, 10, []⟩] =
      [⟨⟨"a", 1, 2, 9⟩, ["1"]⟩, ⟨⟨"b", 1, 2, 8⟩, ["1"]⟩] := by
    rw [buildEntityRows, List.mergeSort_of_sorted (by decide)]
    decide
  simp only [getEntities, hb]
  rw [List.mergeSort_of_sorted (by decide)]
  decide

/-- **C5 (amended)**: for every segment (with a unique id among the segments
the join ran against) and every entity kind, the attached list contains
exactly the values of entities that overlap the segment (entity starts before
and ends within/after the segment's start, or starts within the segment's
span) with confidence strictly above the threshold, deduplicated — but in the
unspecified iteration order of a Python `set`, the descending-confidence sort
being discarded by the final `list(set(...))`; and `_annotate_segments`
attaches exactly these lists, per kind, independently. -/
theorem entity_attachment_spec :
    (∀ (threshold : ℚ) (pySetList : List String → List String),
      IsPySetList pySetList →
      ∀ (rows : List EntityRow) (segments : List AvSegment) (s : AvSegment),
        s ∈ segments →
        (segments.map (fun x => x.av_segment_id)).Nodup →
        (getEntities threshold pySetList (buildEntityRows rows segments)
            s.av_segment_id).Nodup ∧
        (∀ v, v ∈ getEntities threshold pySetList
            (buildEntityRows rows segments) s.av_segment_id ↔
          ∃ r ∈ rows, r.value = v ∧ r.confidence > threshold ∧
            rowOverlapsRange r.start_s r.end_s s.start_s s.end_s = true)) ∧
    (∀ (threshold : ℚ) (pySetList : List String → List String)
        (segments : List AvSegment)
        (labelRows objectRows logoRows textRows : List EntityRow)
        (i : Nat) (seg : AvSegment), segments[i]? = some seg →
      (annotateSegments threshold pySetList segments labelRows objectRows
          logoRows textRows)[i]? = some
        { toAvSegment := seg
          labels := getEntities threshold pySetList
            (buildEntityRows labelRows segments) seg.av_segment_id
          objects := getEntities threshold pySetList
            (buildEntityRows objectRows segments) seg.av_segment_id
          logos := getEntities threshold pySetList
            (buildEntityRows logoRows segments) seg.av_segment_id
          text := getEntities threshold pySetList
            (buildEntityRows textRows segments) seg.av_segment_id }) := by
  constructor
  · intro threshold pySetList hpy rows segments s hs hnodup
    refine ⟨(hpy _).1, ?_⟩
    intro v
    simp only [getEntities]
    rw [(hpy _).2 v]
    have hinj := List.inj_on_of_nodup_map hnodup
    constructor
    · intro hv
      obtain ⟨r, hr, hrv⟩ := List.mem_map.mp hv
      have hr2 := List.mem_mergeSort.mp hr
      rw [List.mem_filter] at hr2
      obtain ⟨hr3, hconf⟩ := hr2
      rw [List.mem_filter] at hr3
      obtain ⟨hr4, hmemid⟩ := hr3
      have hr5 := List.mem_mergeSort.mp hr4
      obtain ⟨r0, hr0, rfl⟩ := List.mem_map.mp hr5
      refine ⟨r0, hr0, hrv, by simpa using hconf, ?_⟩
      have hmemid' : s.av_segment_id ∈
          identifySegments r0.start_s r0.end_s segments := by
        simpa using hmemid
      obtain ⟨s', hs', hsid⟩ := List.mem_map.mp hmemid'
      rw [List.mem_filter] at hs'
      have : s' = s := hinj hs'.1 hs hsid
      rw [← this]
      exact hs'.2
    · rintro ⟨r0, hr0, hval, hconf, hover⟩
      apply List.mem_map.mpr
      refine ⟨{ toEntityRow := r0
                av_segment_ids :=
                  identifySegments r0.start_s r0.end_s segments }, ?_, hval⟩
      apply List.mem_mergeSort.mpr
      rw [List.mem_filter]
      constructor
      · rw [List.mem_filter]
        constructor
        · exact List.mem_mergeSort.mpr (List.mem_map_of_mem _ hr0)
        · simp only [identifySegments, decide_eq_true_eq]
          exact List.mem_map.mpr ⟨s, List.mem_filter.mpr ⟨hs, hover⟩, rfl⟩
      · simpa using hconf
  · intro threshold pySetList segments labelRows objectRows logoRows textRows
      i seg hseg
    simp only [annotateSegments, List.getElem?_map, hseg, Option.map_some']

/-- Witness for `entity_attachment_spec`: at the counterexample's concrete
input the attached list is duplicate-free. -/
theorem entity_attachment_spec_witness :
    (getEntities 7 reversedSetList
        (buildEntityRows [⟨"a", 1, 2, 9⟩, ⟨"b", 1, 2, 8⟩]
          [⟨"1", [], [], 0, 10, 10, []⟩])
        (AvSegment.av_segment_id ⟨"1", [], [], 0, 10, 10, []⟩)).Nodup :=
  (entity_attachment_spec.1 7 reversedSetList isPySetList_reversedSetList
    [⟨"a", 1, 2, 9⟩, ⟨"b", 1, 2, 8⟩] [⟨"1", [], [], 0, 10, 10, []⟩]
    ⟨"1", [], [], 0, 10, 10, []⟩ (List.mem_singleton.mpr rfl) (by simp)).1

/-! ### Segment Splitter -/

theorem subSegmentId_inj (baseId : String) {j j' : Nat}
    (h : subSegmentId baseId j = subSegmentId baseId j') : j = j' := by
  have hd := congrArg String.data h
  simp only [subSegmentId, String.data_append] at hd
  exact natChars_injective (List.append_cancel_left hd)

theorem updateRows_append (A B : List SplitSegment) (tid : String)
    (f : SplitSegment → SplitSegment) :
    updateRows (A ++ B) tid f = updateRows A tid f ++ updateRows B tid f := by
  simp [updateRows]

theorem updateRows_of_none (A : List SplitSegment) (tid : String)
    (f : SplitSegment → SplitSegment)
    (h : ∀ r ∈ A, r.av_segment_id ≠ tid) : updateRows A tid f = A := by
  rw [updateRows]
  conv_rhs => rw [← List.map_id A]
  apply List.map_congr_left
  intro r hr
  rw [if_neg (h r hr)]
  rfl

theorem updateRows_singleton (r : SplitSegment) (tid : String)
    (f : SplitSegment → SplitSegment) (h : r.av_segment_id = tid) :
    updateRows [r] tid f = [f r] := by
  simp [updateRows, h]

theorem filter_eq_singleton {α : Type} {p : α → Bool} :
    ∀ {l : List α} {x : α}, l.filter p = [x] →
      ∃ L R, l = L ++ x :: R ∧ (∀ y ∈ L, p y = false) ∧
        (∀ y ∈ R, p y = false) ∧ p x = true := by
  intro l
  induction l with
  | nil => intro x h; simp at h
  | cons a l' ih =>
      intro x h
      by_cases pa : p a
      · rw [List.filter_cons_of_pos pa] at h
        have ha : a = x := by
          have := congrArg (fun t => t.head?) h
          simpa using this
        have hrest : l'.filter p = [] := by
          have := congrArg (fun t => t.tail) h
          simpa using this
        refine ⟨[], l', by simp [ha], by simp, ?_, ha ▸ pa⟩
        intro y hy
        by_contra hne
        have hmem : y ∈ l'.filter p :=
          List.mem_filter.mpr ⟨hy, by simpa using hne⟩
        rw [hrest] at hmem
        cases hmem
      · rw [List.filter_cons_of_neg pa] at h
        obtain ⟨L, R, hl, hL, hR, hx⟩ := ih h
        exact ⟨a :: L, R, by rw [hl]; rfl,
          by
            intro y hy
            rcases List.mem_cons.mp hy with rfl | hy
            · simpa using pa
            · exact hL y hy,
          hR, hx⟩

theorem groupMarkers_single (baseId : String) :
    ∀ (ms : List AvSegmentSplitMarker) (ts0 : List ℚ),
      (∀ m ∈ ms, m.av_segment_id = baseId) →
      ms.foldl addMarkerToGroups [(baseId, ts0)] =
        [(baseId, ts0 ++ ms.map (fun m => m.marker_cut_time_s))] := by
  intro ms
  induction ms with
  | nil => intro ts0 _; simp
  | cons m ms' ih =>
      intro ts0 hall
      have hm : m.av_segment_id = baseId := hall m (List.mem_cons_self _ _)
      have hstep : addMarkerToGroups [(baseId, ts0)] m =
          [(baseId, ts0 ++ [m.marker_cut_time_s])] := by
        rw [addMarkerToGroups]
        rw [if_pos (by simp [hm])]
        simp [hm]
      rw [List.foldl_cons, hstep,
        ih (ts0 ++ [m.marker_cut_time_s])
          (fun m' hm' => hall m' (List.mem_cons_of_mem _ hm'))]
      simp

theorem groupMarkers_eq_single (baseId : String)
    (ms : List AvSegmentSplitMarker) (hne : ms ≠ [])
    (hall : ∀ m ∈ ms, m.av_segment_id = baseId) :
    groupMarkers ms = [(baseId, ms.map (fun m => m.marker_cut_time_s))] := by
  match ms, hne with
  | m :: ms', _ =>
    have hm : m.av_segment_id = baseId := hall m (List.mem_cons_self _ _)
    rw [groupMarkers, List.foldl_cons]
    have hstep : addMarkerToGroups [] m =
        [(m.av_segment_id, [m.marker_cut_time_s])] := by
      rw [addMarkerToGroups, if_neg (by simp)]
      rfl
    rw [hstep, hm,
      groupMarkers_single baseId ms' [m.marker_cut_time_s]
        (fun m' hm' => hall m' (List.mem_cons_of_mem _ hm'))]
    simp

/-- From marker index 1 on, the current tail row is the last list element:
each iteration trims it in place and appends the next trailing row, leaving
exactly `loopRows` behind the stable prefix `A`. -/
theorem applyMarkersFrom_spec (baseId : String) (rts : SplitSegment) (S : ℚ)
    (k : Nat) :
    ∀ (ts : List ℚ) (i : Nat) (A : List SplitSegment)
      (tailRow : SplitSegment),
      i + ts.length = k →
      tailRow.av_segment_id = subSegmentId baseId (i + 1) →
      (∀ r ∈ A, ∀ j, i + 1 ≤ j → j ≤ k + 1 →
        r.av_segment_id ≠ subSegmentId baseId j) →
      (applyMarkersFrom baseId rts k i ts
        ⟨A ++ [tailRow], subSegmentId baseId (i + 1), S⟩).segs =
        A ++ loopRows baseId rts S k i ts tailRow := by
  intro ts
  induction ts with
  | nil => intro i A tailRow _ _ _; rfl
  | cons t ts' ih =>
      intro i A tailRow hk htail hA
      have hupd : updateRows (A ++ [tailRow]) (subSegmentId baseId (i + 1))
          (fun s =>
            { s with
              end_s := t + S
              duration_s := t + S - S
              cut := true }) =
          A ++
            [{ tailRow with
               end_s := t + S
               duration_s := t + S - S
               cut := true }] := by
        rw [updateRows_append,
          updateRows_of_none A _ _
            (fun r hr => hA r hr (i + 1) (le_refl _) (by omega)),
          updateRows_singleton tailRow _ _ htail]
      show (applyMarkersFrom baseId rts k (i + 1) ts'
          ⟨updateRows (A ++ [tailRow]) (subSegmentId baseId (i + 1))
              (fun s =>
                { s with
                  end_s := t + S
                  duration_s := t + S - S
                  cut := true }) ++
            [{ av_segment_id := subSegmentId baseId (i + 2)
               visual_segment_ids := rts.visual_segment_ids
               audio_segment_ids := rts.audio_segment_ids
               start_s := t + S
               end_s := if i = k - 1 then rts.end_s else t + S
               duration_s := (if i = k - 1 then rts.end_s else t + S) - (t + S)
               transcript := rts.transcript
               labels := rts.labels
               objects := rts.objects
               logos := rts.logos
               text := rts.text
               cut := true }],
            subSegmentId baseId (i + 2),
            if i = k - 1 then t + S else S⟩).segs = _
      rw [hupd]
      by_cases hlast : i = k - 1
      · have hts' : ts' = [] := by
          have hlen : i + (ts'.length + 1) = k := by simpa using hk
          cases ts' with
          | nil => rfl
          | cons u us => simp at hlen; omega
        subst hts'
        show (A ++ [_]) ++ [_] = _
        rw [loopRows, loopRows, List.append_assoc]
        rfl
      · rw [if_neg hlast]
        have hk' : (i + 1) + ts'.length = k := by
          simp only [List.length_cons] at hk
          omega
        have hA' : ∀ r ∈ A ++ [{ tailRow with end_s := t + S, duration_s := t + S - S, cut := true }], ∀ j, (i + 1) + 1 ≤ j → j ≤ k + 1 → r.av_segment_id ≠ subSegmentId baseId j := by
          intro r hr j hj1 hj2
          rcases List.mem_append.mp hr with hr | hr
          · exact hA r hr j (by omega) hj2
          · rw [List.mem_singleton.mp hr]
            show tailRow.av_segment_id ≠ _
            rw [htail]
            intro hcontra
            have := subSegmentId_inj baseId hcontra
            omega
        have hgoal := ih (i + 1) (A ++ [{ tailRow with end_s := t + S, duration_s := t + S - S, cut := true }]) { av_segment_id := subSegmentId baseId (i + 2), visual_segment_ids := rts.visual_segment_ids, audio_segment_ids := rts.audio_segment_ids, start_s := t + S, end_s := if i = k - 1 then rts.end_s else t + S, duration_s := (if i = k - 1 then rts.end_s else t + S) - (t + S), transcript := rts.transcript, labels := rts.labels, objects := rts.objects, logos := rts.logos, text := rts.text, cut := true } hk' rfl hA'
        rw [loopRows]
        simp only [if_neg hlast] at hgoal ⊢
        simp only [show i + 1 + 1 = i + 2 from rfl] at hgoal
        rw [hgoal, List.append_assoc]
        rfl

/-- Recomputing the duration of every row the marker loop left behind yields
exactly the final sub-segment rows from index `i + 1` on. -/
theorem loopRows_map_recompute (baseId : String) (rts : SplitSegment)
    (k : Nat) (hbase : rts.av_segment_id = baseId) :
    ∀ (ts : List ℚ) (i : Nat) (tailRow : SplitSegment),
      i + ts.length = k →
      tailRow.av_segment_id = subSegmentId baseId (i + 1) →
      tailRow.visual_segment_ids = rts.visual_segment_ids →
      tailRow.audio_segment_ids = rts.audio_segment_ids →
      tailRow.transcript = rts.transcript →
      tailRow.labels = rts.labels →
      tailRow.objects = rts.objects →
      tailRow.logos = rts.logos →
      tailRow.text = rts.text →
      tailRow.cut = true →
      (ts = [] → tailRow.end_s = rts.end_s) →
      (loopRows baseId rts rts.start_s k i ts tailRow).map
          withRecomputedDuration =
        splitRowsAux rts (i + 1) tailRow.start_s ts := by
  intro ts
  induction ts with
  | nil =>
      intro i tailRow _ hid h1 h2 h3 h4 h5 h6 h7 hcut hend
      rw [loopRows, splitRowsAux, List.map_cons, List.map_nil]
      congr 1
      rw [← hbase] at hid
      rw [withRecomputedDuration, splitContentRow]
      cases tailRow
      simp only at hid h1 h2 h3 h4 h5 h6 h7 hcut
      simp_all [hend rfl]
  | cons t ts' ih =>
      intro i tailRow hk hid h1 h2 h3 h4 h5 h6 h7 hcut hend
      rw [loopRows, splitRowsAux, List.map_cons]
      congr 1
      · rw [← hbase] at hid
        rw [withRecomputedDuration, splitContentRow]
        cases tailRow
        simp only at hid h1 h2 h3 h4 h5 h6 h7 hcut
        simp_all
      · have hk' : (i + 1) + ts'.length = k := by
          simp only [List.length_cons] at hk
          omega
        have := ih (i + 1)
          { av_segment_id := subSegmentId baseId (i + 2),
            visual_segment_ids := rts.visual_segment_ids,
            audio_segment_ids := rts.audio_segment_ids,
            start_s := t + rts.start_s,
            end_s := if i = k - 1 then rts.end_s else t + rts.start_s,
            duration_s := (if i = k - 1 then rts.end_s
              else t + rts.start_s) - (t + rts.start_s),
            transcript := rts.transcript,
            labels := rts.labels,
            objects := rts.objects,
            logos := rts.logos,
            text := rts.text,
            cut := true } hk' rfl rfl rfl rfl rfl rfl rfl rfl rfl
          (by
            intro hts'
            subst hts'
            simp only [List.length_nil] at hk'
            have : i = k - 1 := by omega
            simp [this])
        exact this


theorem splitRowsAux_ne_nil (orig : SplitSegment) (j : Nat) (prevAbs : ℚ)
    (ts : List ℚ) : splitRowsAux orig j prevAbs ts ≠ [] := by
  cases ts <;> simp [splitRowsAux]

theorem getLast?_cons_of_ne_nil {α : Type} (a : α) (l : List α) (h : l ≠ []) :
    (a :: l).getLast? = l.getLast? := by
  cases l with
  | nil => exact absurd rfl h
  | cons b l' => exact List.getLast?_cons_cons

theorem splitRowsAux_length (orig : SplitSegment) :
    ∀ (ts : List ℚ) (j : Nat) (prevAbs : ℚ),
      (splitRowsAux orig j prevAbs ts).length = ts.length + 1 := by
  intro ts
  induction ts with
  | nil => intro j prevAbs; rfl
  | cons t ts' ih =>
      intro j prevAbs
      simp [splitRowsAux, ih (j + 1)]

theorem splitRowsAux_ids (orig : SplitSegment) :
    ∀ (ts : List ℚ) (j : Nat) (prevAbs : ℚ),
      (splitRowsAux orig j prevAbs ts).map (fun r => r.av_segment_id) =
        (List.range (ts.length + 1)).map
          (fun m => subSegmentId orig.av_segment_id (j + m)) := by
  intro ts
  induction ts with
  | nil =>
      intro j prevAbs
      simp [splitRowsAux, splitContentRow, List.range_succ_eq_map]
  | cons t ts' ih =>
      intro j prevAbs
      have hrhs : (List.range (ts'.length + 1 + 1)).map
            (fun m => subSegmentId orig.av_segment_id (j + m)) =
          subSegmentId orig.av_segment_id j ::
            (List.range (ts'.length + 1)).map
              (fun m => subSegmentId orig.av_segment_id (j + 1 + m)) := by
        rw [List.range_succ_eq_map, List.map_cons, List.map_map]
        refine congrArg₂ List.cons rfl ?_
        apply List.map_congr_left
        intro m _
        simp only [Function.comp_apply]
        congr 1
        omega
      rw [show splitRowsAux orig j prevAbs (t :: ts') =
        splitContentRow orig j prevAbs (t + orig.start_s) ::
          splitRowsAux orig (j + 1) (t + orig.start_s) ts' from rfl]
      rw [List.map_cons, List.length_cons, hrhs]
      exact congrArg₂ List.cons rfl (ih (j + 1) (t + orig.start_s))

theorem splitRowsAux_starts (orig : SplitSegment) :
    ∀ (ts : List ℚ) (j : Nat) (prevAbs : ℚ),
      (splitRowsAux orig j prevAbs ts).map (fun r => r.start_s) =
        prevAbs :: ts.map (fun t => t + orig.start_s) := by
  intro ts
  induction ts with
  | nil => intro j prevAbs; rfl
  | cons t ts' ih =>
      intro j prevAbs
      simp only [splitRowsAux, List.map_cons]
      rw [ih (j + 1)]
      rfl

theorem splitRowsAux_ends (orig : SplitSegment) :
    ∀ (ts : List ℚ) (j : Nat) (prevAbs : ℚ),
      (splitRowsAux orig j prevAbs ts).map (fun r => r.end_s) =
        ts.map (fun t => t + orig.start_s) ++ [orig.end_s] := by
  intro ts
  induction ts with
  | nil => intro j prevAbs; rfl
  | cons t ts' ih =>
      intro t' prevAbs
      simp only [splitRowsAux, List.map_cons]
      rw [ih]
      rfl

theorem splitRowsAux_bounds (orig : SplitSegment) :
    ∀ (ts : List ℚ) (j : Nat) (prevAbs : ℚ),
      List.Pairwise (· < ·) ts →
      (∀ t ∈ ts, prevAbs < t + orig.start_s) →
      (∀ t ∈ ts, t + orig.start_s < orig.end_s) →
      prevAbs < orig.end_s →
      List.Chain' (fun a b => a.end_s = b.start_s)
          (splitRowsAux orig j prevAbs ts) ∧
        (∀ r ∈ splitRowsAux orig j prevAbs ts, r.start_s < r.end_s) ∧
        (splitRowsAux orig j prevAbs ts).head?.map (fun r => r.start_s) =
          some prevAbs ∧
        (splitRowsAux orig j prevAbs ts).getLast?.map (fun r => r.end_s) =
          some orig.end_s := by
  intro ts
  induction ts with
  | nil =>
      intro j prevAbs _ _ _ hlt
      refine ⟨by simp [splitRowsAux], ?_, rfl, rfl⟩
      intro r hr
      rw [show splitRowsAux orig j prevAbs [] =
        [splitContentRow orig j prevAbs orig.end_s] from rfl] at hr
      rw [List.mem_singleton.mp hr]
      exact hlt
  | cons t ts' ih =>
      intro j prevAbs hpw hlt hup hend
      have hpw' : List.Pairwise (· < ·) ts' := (List.pairwise_cons.mp hpw).2
      have hlt' : ∀ u ∈ ts', t + orig.start_s < u + orig.start_s := by
        intro u hu
        have := (List.pairwise_cons.mp hpw).1 u hu
        linarith
      have hup' : ∀ u ∈ ts', u + orig.start_s < orig.end_s :=
        fun u hu => hup u (List.mem_cons_of_mem _ hu)
      have hend' : t + orig.start_s < orig.end_s :=
        hup t (List.mem_cons_self _ _)
      obtain ⟨ihc, ihp, ihh, ihl⟩ :=
        ih (j + 1) (t + orig.start_s) hpw' hlt' hup' hend'
      rw [show splitRowsAux orig j prevAbs (t :: ts') =
        splitContentRow orig j prevAbs (t + orig.start_s) ::
          splitRowsAux orig (j + 1) (t + orig.start_s) ts' from rfl]
      refine ⟨?_, ?_, rfl, ?_⟩
      · rw [List.chain'_cons']
        refine ⟨?_, ihc⟩
        intro y hy
        obtain ⟨r, hr, hrs⟩ := Option.map_eq_some'.mp ihh
        rw [hr] at hy
        rw [Option.mem_def, Option.some_inj] at hy
        rw [← hy]
        exact hrs.symm
      · intro r hr
        rcases List.mem_cons.mp hr with rfl | hr
        · exact hlt t (List.mem_cons_self _ _)
        · exact ihp r hr
      · rw [getLast?_cons_of_ne_nil _ _ (splitRowsAux_ne_nil orig _ _ _)]
        exact ihl

theorem applySplitGroup_of_filter (segs : List SplitSegment) (bid : String)
    (ts : List ℚ) (row : SplitSegment) (rest : List SplitSegment)
    (h : segs.filter (fun s => s.av_segment_id = bid) = row :: rest) :
    applySplitGroup segs (bid, ts) =
      (applyMarkersFrom bid row ts.length 0 ts
        ⟨updateRows segs bid
            (fun s => { s with av_segment_id := subSegmentId bid 1 }),
          subSegmentId bid 1, row.start_s⟩).segs := by
  unfold applySplitGroup
  split
  · next heq =>
      rw [h] at heq
      cases heq
  · next rowToSplit tl heq =>
      rw [h] at heq
      cases heq
      rfl

/-- One outer-loop iteration targeting the unique row with the group's id,
followed by the final duration recomputation: the untouched rows keep their
places and the targeted row becomes the final sub-segment rows. -/
theorem applySplitGroup_map_recompute
    (L R : List SplitSegment) (orig : SplitSegment) (t0 : ℚ) (ts'' : List ℚ)
    (hL : ∀ y ∈ L, y.av_segment_id ≠ orig.av_segment_id)
    (hR : ∀ y ∈ R, y.av_segment_id ≠ orig.av_segment_id)
    (hfresh : ∀ s ∈ L ++ orig :: R, ∀ j, 1 ≤ j → j ≤ ts''.length + 2 →
      s.av_segment_id ≠ subSegmentId orig.av_segment_id j) :
    (applySplitGroup
        (L.map withCutFalse ++ withCutFalse orig :: R.map withCutFalse)
        (orig.av_segment_id, t0 :: ts'')).map withRecomputedDuration =
      L.map (fun s => withRecomputedDuration (withCutFalse s)) ++
        splitContentRow (withCutFalse orig) 1 (withCutFalse orig).start_s
            (t0 + (withCutFalse orig).start_s) ::
          (R.map (fun s => withRecomputedDuration (withCutFalse s)) ++
            splitRowsAux (withCutFalse orig) 2
              (t0 + (withCutFalse orig).start_s) ts'') := by
  have hLcf : ∀ y ∈ L.map withCutFalse,
      y.av_segment_id ≠ orig.av_segment_id := by
    intro y hy
    obtain ⟨z, hz, rfl⟩ := List.mem_map.mp hy
    exact hL z hz
  have hRcf : ∀ y ∈ R.map withCutFalse,
      y.av_segment_id ≠ orig.av_segment_id := by
    intro y hy
    obtain ⟨z, hz, rfl⟩ := List.mem_map.mp hy
    exact hR z hz
  have hfilter : (L.map withCutFalse ++ withCutFalse orig ::
        R.map withCutFalse).filter
        (fun s => s.av_segment_id = orig.av_segment_id) =
      [withCutFalse orig] := by
    rw [List.filter_append,
      List.filter_cons_of_pos (by simp [withCutFalse]),
      List.filter_eq_nil_iff.mpr (fun a ha => by simpa using hLcf a ha),
      List.filter_eq_nil_iff.mpr (fun a ha => by simpa using hRcf a ha)]
    rfl
  rw [applySplitGroup_of_filter _ _ _ _ _ hfilter]
  have hrename : updateRows
      (L.map withCutFalse ++ withCutFalse orig :: R.map withCutFalse)
      orig.av_segment_id
      (fun s => { s with av_segment_id := subSegmentId orig.av_segment_id 1 }) =
      L.map withCutFalse ++
        { withCutFalse orig with
          av_segment_id := subSegmentId orig.av_segment_id 1 } ::
          R.map withCutFalse := by
    rw [show L.map withCutFalse ++ withCutFalse orig :: R.map withCutFalse =
      (L.map withCutFalse ++ [withCutFalse orig]) ++ R.map withCutFalse by
        simp]
    rw [updateRows_append, updateRows_append,
      updateRows_of_none _ _ _ hLcf, updateRows_of_none _ _ _ hRcf,
      updateRows_singleton (withCutFalse orig) orig.av_segment_id _ rfl]
    simp
  rw [hrename]
  simp only [applyMarkersFrom]
  have hL1 : ∀ r ∈ List.map withCutFalse L,
      r.av_segment_id ≠ subSegmentId orig.av_segment_id 1 := by
    intro r hr
    obtain ⟨z, hz, rfl⟩ := List.mem_map.mp hr
    exact hfresh z (List.mem_append_left _ hz) 1 le_rfl (by omega)
  have hR1 : ∀ r ∈ List.map withCutFalse R,
      r.av_segment_id ≠ subSegmentId orig.av_segment_id 1 := by
    intro r hr
    obtain ⟨z, hz, rfl⟩ := List.mem_map.mp hr
    exact hfresh z
      (List.mem_append_right _ (List.mem_cons_of_mem _ hz)) 1 le_rfl (by omega)
  have hupd0 : updateRows
      (List.map withCutFalse L ++
        { av_segment_id := subSegmentId orig.av_segment_id 1
          visual_segment_ids := (withCutFalse orig).visual_segment_ids
          audio_segment_ids := (withCutFalse orig).audio_segment_ids
          start_s := (withCutFalse orig).start_s
          end_s := (withCutFalse orig).end_s
          duration_s := (withCutFalse orig).duration_s
          transcript := (withCutFalse orig).transcript
          labels := (withCutFalse orig).labels
          objects := (withCutFalse orig).objects
          logos := (withCutFalse orig).logos
          text := (withCutFalse orig).text
          cut := (withCutFalse orig).cut } ::
        List.map withCutFalse R)
      (subSegmentId orig.av_segment_id 1)
      (fun s =>
        { s with
          end_s := t0 + (withCutFalse orig).start_s
          duration_s := t0 + (withCutFalse orig).start_s -
            (withCutFalse orig).start_s
          cut := true }) =
      List.map withCutFalse L ++
        { av_segment_id := subSegmentId orig.av_segment_id 1
          visual_segment_ids := (withCutFalse orig).visual_segment_ids
          audio_segment_ids := (withCutFalse orig).audio_segment_ids
          start_s := (withCutFalse orig).start_s
          end_s := t0 + (withCutFalse orig).start_s
          duration_s := t0 + (withCutFalse orig).start_s -
            (withCutFalse orig).start_s
          transcript := (withCutFalse orig).transcript
          labels := (withCutFalse orig).labels
          objects := (withCutFalse orig).objects
          logos := (withCutFalse orig).logos
          text := (withCutFalse orig).text
          cut := true } ::
        List.map withCutFalse R := by
    rw [show List.map withCutFalse L ++
        ({ av_segment_id := subSegmentId orig.av_segment_id 1
           visual_segment_ids := (withCutFalse orig).visual_segment_ids
           audio_segment_ids := (withCutFalse orig).audio_segment_ids
           start_s := (withCutFalse orig).start_s
           end_s := (withCutFalse orig).end_s
           duration_s := (withCutFalse orig).duration_s
           transcript := (withCutFalse orig).transcript
           labels := (withCutFalse orig).labels
           objects := (withCutFalse orig).objects
           logos := (withCutFalse orig).logos
           text := (withCutFalse orig).text
           cut := (withCutFalse orig).cut } : SplitSegment) ::
        List.map withCutFalse R =
      (List.map withCutFalse L ++
        [({ av_segment_id := subSegmentId orig.av_segment_id 1
            visual_segment_ids := (withCutFalse orig).visual_segment_ids
            audio_segment_ids := (withCutFalse orig).audio_segment_ids
            start_s := (withCutFalse orig).start_s
            end_s := (withCutFalse orig).end_s
            duration_s := (withCutFalse orig).duration_s
            transcript := (withCutFalse orig).transcript
            labels := (withCutFalse orig).labels
            objects := (withCutFalse orig).objects
            logos := (withCutFalse orig).logos
            text := (withCutFalse orig).text
            cut := (withCutFalse orig).cut } : SplitSegment)]) ++
        List.map withCutFalse R by simp]
    rw [updateRows_append, updateRows_append,
      updateRows_of_none _ _ _ hL1, updateRows_of_none _ _ _ hR1,
      updateRows_singleton _ (subSegmentId orig.av_segment_id 1) _ rfl]
    simp
  rw [hupd0]
  by_cases hc : ts'' = []
  · subst hc
    simp [applyMarkersFrom, withRecomputedDuration, withCutFalse,
      splitContentRow, splitRowsAux, Function.comp_def]
  · have h0 : ¬((0 : Nat) = (t0 :: ts'').length - 1) := by
      simp only [List.length_cons, Nat.add_sub_cancel]
      intro h
      exact hc (List.length_eq_zero.mp h.symm)
    simp only [if_neg h0]
    simp only [show (0 : Nat) + 1 = 1 from rfl,
      show (0 : Nat) + 2 = 1 + 1 from rfl]
    rw [applyMarkersFrom_spec orig.av_segment_id (withCutFalse orig)
      ((withCutFalse orig).start_s) ((t0 :: ts'').length)]
    · rw [List.map_append]
      rw [loopRows_map_recompute orig.av_segment_id (withCutFalse orig)
        ((t0 :: ts'').length) rfl]
      · simp [Function.comp_def, withRecomputedDuration, splitContentRow,
          withCutFalse]
      · simp only [List.length_cons]; omega
      · rfl
      · rfl
      · rfl
      · rfl
      · rfl
      · rfl
      · rfl
      · rfl
      · rfl
      · intro h; exact absurd h hc
    · simp only [List.length_cons]; omega
    · rfl
    · intro r hr j hj1 hj2
      simp only [List.length_cons] at hj2
      rcases List.mem_append.mp hr with hr | hr
      · obtain ⟨z, hz, rfl⟩ := List.mem_map.mp hr
        exact hfresh z (List.mem_append_left _ hz) j (by omega) (by omega)
      · rcases List.mem_cons.mp hr with rfl | hr
        · intro hcontra
          have h1j := subSegmentId_inj orig.av_segment_id hcontra
          omega
        · obtain ⟨z, hz, rfl⟩ := List.mem_map.mp hr
          exact hfresh z
            (List.mem_append_right _ (List.mem_cons_of_mem _ hz)) j
            (by omega) (by omega)

/-- `_finalise_split` on a segment targeted by at least one marker, the
targeted id occurring exactly once among the rows: up to the final sort, the
output is the untouched rows (with `cut` reset and duration recomputed) plus
the `splitRows` of the targeted row. -/
theorem finaliseSplit_single_target (segs : List SplitSegment)
    (orig : SplitSegment) (ms : List AvSegmentSplitMarker)
    (htarget : ∀ m ∈ ms, m.av_segment_id = orig.av_segment_id)
    (hne : ms ≠ [])
    (hunique : segs.filter
      (fun s => s.av_segment_id = orig.av_segment_id) = [orig])
    (hfresh : ∀ s ∈ segs, ∀ j, 1 ≤ j → j ≤ ms.length + 1 →
      s.av_segment_id ≠ subSegmentId orig.av_segment_id j) :
    ∃ L R, segs = L ++ orig :: R ∧
      (finaliseSplit segs ms).Perm
        ((L ++ R).map (fun s => withRecomputedDuration (withCutFalse s)) ++
          splitRows (withCutFalse orig)
            (ms.map (fun m => m.marker_cut_time_s))) := by
  obtain ⟨L, R, hLR, hLf, hRf, -⟩ := filter_eq_singleton hunique
  refine ⟨L, R, hLR, ?_⟩
  cases ms with
  | nil => exact absurd rfl hne
  | cons m0 ms' =>
    have hL : ∀ y ∈ L, y.av_segment_id ≠ orig.av_segment_id := by
      intro y hy
      simpa using hLf y hy
    have hR : ∀ y ∈ R, y.av_segment_id ≠ orig.av_segment_id := by
      intro y hy
      simpa using hRf y hy
    have hfresh2 : ∀ s ∈ L ++ orig :: R, ∀ j, 1 ≤ j →
        j ≤ (ms'.map (fun m => m.marker_cut_time_s)).length + 2 →
        s.av_segment_id ≠ subSegmentId orig.av_segment_id j := by
      intro s hs j hj1 hj2
      simp only [List.length_map] at hj2
      exact hfresh s (by rw [hLR]; exact hs) j hj1
        (by simp only [List.length_cons]; omega)
    simp only [finaliseSplit]
    refine (List.mergeSort_perm _ _).trans ?_
    rw [groupMarkers_eq_single orig.av_segment_id (m0 :: ms') (by simp)
      htarget]
    rw [List.foldl_cons, List.foldl_nil, hLR]
    simp only [List.map_append, List.map_cons]
    rw [applySplitGroup_map_recompute L R orig m0.marker_cut_time_s
      (ms'.map (fun m => m.marker_cut_time_s)) hL hR hfresh2]
    rw [show splitRows (withCutFalse orig)
        (m0.marker_cut_time_s :: ms'.map (fun m => m.marker_cut_time_s)) =
      splitContentRow (withCutFalse orig) 1 (withCutFalse orig).start_s
          (m0.marker_cut_time_s + (withCutFalse orig).start_s) ::
        splitRowsAux (withCutFalse orig) 2
          (m0.marker_cut_time_s + (withCutFalse orig).start_s)
          (ms'.map (fun m => m.marker_cut_time_s)) from rfl]
    refine List.perm_middle.trans (List.Perm.trans ?_ List.perm_middle.symm)
    rw [List.append_assoc]

/-- **C2.** For every segment targeted by `k` markers (all markers naming
that segment's id, which occurs exactly once among the rows and whose
sub-segment ids are fresh; marker times strictly increasing and strictly
inside the segment's duration), `_finalise_split` yields, up to the final
sort, the untouched rows plus exactly `k + 1` sub-segments with ids
`"{id}.1"` through `"{id}.{k+1}"`, chained monotonically increasing
boundaries, the first sub-segment starting at the original `start_s` and the
last ending at the original `end_s`. -/
theorem finaliseSplit_split_spec (segs : List SplitSegment)
    (orig : SplitSegment) (ms : List AvSegmentSplitMarker)
    (htarget : ∀ m ∈ ms, m.av_segment_id = orig.av_segment_id)
    (hne : ms ≠ [])
    (hunique : segs.filter
      (fun s => s.av_segment_id = orig.av_segment_id) = [orig])
    (hfresh : ∀ s ∈ segs, ∀ j, 1 ≤ j → j ≤ ms.length + 1 →
      s.av_segment_id ≠ subSegmentId orig.av_segment_id j)
    (hinc : List.Pairwise (· < ·)
      (ms.map (fun m => m.marker_cut_time_s)))
    (hpos : ∀ t ∈ ms.map (fun m => m.marker_cut_time_s),
      0 < t ∧ t + orig.start_s < orig.end_s) :
    ∃ L R, segs = L ++ orig :: R ∧
      (finaliseSplit segs ms).Perm
        ((L ++ R).map (fun s => withRecomputedDuration (withCutFalse s)) ++
          splitRows (withCutFalse orig)
            (ms.map (fun m => m.marker_cut_time_s))) ∧
      (splitRows (withCutFalse orig)
          (ms.map (fun m => m.marker_cut_time_s))).length = ms.length + 1 ∧
      (splitRows (withCutFalse orig)
          (ms.map (fun m => m.marker_cut_time_s))).map
          (fun r => r.av_segment_id) =
        (List.range (ms.length + 1)).map
          (fun m => subSegmentId orig.av_segment_id (1 + m)) ∧
      List.Chain' (fun a b => a.end_s = b.start_s)
        (splitRows (withCutFalse orig)
          (ms.map (fun m => m.marker_cut_time_s))) ∧
      (∀ r ∈ splitRows (withCutFalse orig)
          (ms.map (fun m => m.marker_cut_time_s)), r.start_s < r.end_s) ∧
      (splitRows (withCutFalse orig)
          (ms.map (fun m => m.marker_cut_time_s))).head?.map
        (fun r => r.start_s) = some orig.start_s ∧
      (splitRows (withCutFalse orig)
          (ms.map (fun m => m.marker_cut_time_s))).getLast?.map
        (fun r => r.end_s) = some orig.end_s := by
  obtain ⟨L, R, hLR, hperm⟩ :=
    finaliseSplit_single_target segs orig ms htarget hne hunique hfresh
  have hse : orig.start_s < orig.end_s := by
    cases ms with
    | nil => exact absurd rfl hne
    | cons m0 ms' =>
        have h0 := hpos m0.marker_cut_time_s
          (List.mem_map_of_mem _ (List.mem_cons_self _ _))
        linarith [h0.1, h0.2]
  obtain ⟨hchain, hposr, hhead, hlast⟩ :=
    splitRowsAux_bounds (withCutFalse orig)
      (ms.map (fun m => m.marker_cut_time_s)) 1
      ((withCutFalse orig).start_s)
      hinc
      (fun t ht => by
        simp only [withCutFalse]
        have h1 := (hpos t ht).1
        linarith)
      (fun t ht => by
        simp only [withCutFalse]
        exact (hpos t ht).2)
      (by simp only [withCutFalse]; exact hse)
  refine ⟨L, R, hLR, hperm, ?_, ?_, hchain, hposr, hhead, hlast⟩
  · rw [splitRows, splitRowsAux_length]
    simp
  · rw [splitRows, splitRowsAux_ids]
    simp only [List.length_map]
    rfl

theorem finaliseSplit_split_spec_witness :
    (splitRows
      (withCutFalse ⟨"1", [], [], 0, 10, 10, [], [], [], [], [], false⟩)
      [2, 5]).length = 2 + 1 := by
  obtain ⟨L, R, h1, h2, h3, h4⟩ :=
    finaliseSplit_split_spec
      [⟨"1", [], [], 0, 10, 10, [], [], [], [], [], false⟩]
      ⟨"1", [], [], 0, 10, 10, [], [], [], [], [], false⟩
      [⟨"1", 2⟩, ⟨"1", 5⟩]
      (by decide) (by decide) (by decide)
      (by
        intro s hs j hj1 hj2
        simp only [List.length_cons, List.length_nil] at hj2
        interval_cases j <;> (rw [List.mem_singleton.mp hs]; decide))
      (by decide)
      (by
        intro t ht
        simp only [List.map_cons, List.map_nil, List.mem_cons,
          List.not_mem_nil, or_false] at ht
        rcases ht with rfl | rfl <;> constructor <;> norm_num)
  exact h3

/-- **C3 (amended).** When a segment is targeted by several markers applied
in supplied order, every marker's `marker_cut_time_s` is converted to an
absolute timestamp by adding the ORIGINAL segment's `start_s`
(`current_start_s` is reassigned only after the last marker, where it is
never read again), so the sub-segment boundaries are
`start, t1+start, …, tk+start, end`, each `ti` relative to the original
segment's start and not to the sub-segment produced by the previous
marker. -/
theorem finaliseSplit_markers_absolute (segs : List SplitSegment)
    (orig : SplitSegment) (ms : List AvSegmentSplitMarker)
    (htarget : ∀ m ∈ ms, m.av_segment_id = orig.av_segment_id)
    (hne : ms ≠ [])
    (hunique : segs.filter
      (fun s => s.av_segment_id = orig.av_segment_id) = [orig])
    (hfresh : ∀ s ∈ segs, ∀ j, 1 ≤ j → j ≤ ms.length + 1 →
      s.av_segment_id ≠ subSegmentId orig.av_segment_id j) :
    ∃ L R, segs = L ++ orig :: R ∧
      (finaliseSplit segs ms).Perm
        ((L ++ R).map (fun s => withRecomputedDuration (withCutFalse s)) ++
          splitRows (withCutFalse orig)
            (ms.map (fun m => m.marker_cut_time_s))) ∧
      (splitRows (withCutFalse orig)
          (ms.map (fun m => m.marker_cut_time_s))).map
          (fun r => r.start_s) =
        orig.start_s ::
          (ms.map (fun m => m.marker_cut_time_s)).map
            (fun t => t + orig.start_s) ∧
      (splitRows (withCutFalse orig)
          (ms.map (fun m => m.marker_cut_time_s))).map
          (fun r => r.end_s) =
        (ms.map (fun m => m.marker_cut_time_s)).map
            (fun t => t + orig.start_s) ++ [orig.end_s] := by
  obtain ⟨L, R, hLR, hperm⟩ :=
    finaliseSplit_single_target segs orig ms htarget hne hunique hfresh
  refine ⟨L, R, hLR, hperm, ?_, ?_⟩
  · exact splitRowsAux_starts (withCutFalse orig)
      (ms.map (fun m => m.marker_cut_time_s)) 1
      ((withCutFalse orig).start_s)
  · exact splitRowsAux_ends (withCutFalse orig)
      (ms.map (fun m => m.marker_cut_time_s)) 1
      ((withCutFalse orig).start_s)

theorem finaliseSplit_markers_absolute_witness :
    (splitRows
      (withCutFalse ⟨"1", [], [], 0, 10, 10, [], [], [], [], [], false⟩)
      [2, 3]).map (fun r => r.start_s) =
      0 :: [(2 : ℚ), 3].map (fun t => t + 0) := by
  obtain ⟨L, R, h1, h2, h3, h4⟩ :=
    finaliseSplit_markers_absolute
      [⟨"1", [], [], 0, 10, 10, [], [], [], [], [], false⟩]
      ⟨"1", [], [], 0, 10, 10, [], [], [], [], [], false⟩
      [⟨"1", 2⟩, ⟨"1", 3⟩]
      (by decide) (by decide) (by decide)
      (by
        intro s hs j hj1 hj2
        simp only [List.length_cons, List.length_nil] at hj2
        interval_cases j <;> (rw [List.mem_singleton.mp hs]; decide))
  exact h3

/-- `_finalise_split` cuts at `marker_cut_time_s + current_start_s` where
`current_start_s` stays the ORIGINAL segment's start throughout the marker
loop: on a segment `[0, 10]` with markers at relative times `2` then `3`,
the third sub-segment `"1.3"` starts at absolute time `3`, not at
`2 + 3 = 5` as it would if the second marker were relative to the
sub-segment `"1.2"` produced by the first marker (which starts at `2`). -/
theorem finaliseSplit_relative_marker_counterexample :
    ((finaliseSplit [⟨"1", [], [], 0, 10, 10, [], [], [], [], [], false⟩]
        [⟨"1", 2⟩, ⟨"1", 3⟩]).filter
      (fun r => r.av_segment_id = subSegmentId "1" 3)).map
      (fun r => r.start_s) = [(3 : ℚ)] ∧ ((3 : ℚ)) ≠ 2 + 3 := by
  constructor
  · obtain ⟨L, R, hLR, hperm⟩ :=
      finaliseSplit_single_target
        [⟨"1", [], [], 0, 10, 10, [], [], [], [], [], false⟩]
        ⟨"1", [], [], 0, 10, 10, [], [], [], [], [], false⟩
        [⟨"1", 2⟩, ⟨"1", 3⟩]
        (by decide) (by decide) (by decide)
        (by
          intro s hs j hj1 hj2
          simp only [List.length_cons, List.length_nil] at hj2
          interval_cases j <;> (rw [List.mem_singleton.mp hs]; decide))
    have hL0 : L = [] := by
      cases L with
      | nil => rfl
      | cons a L' =>
          have hlen := congrArg List.length hLR
          simp only [List.length_cons, List.length_nil, List.length_append]
            at hlen
          omega
    subst hL0
    have hR0 : R = [] := by
      simpa using hLR
    subst hR0
    apply List.perm_singleton.mp
    refine ((hperm.filter _).map _).trans ?_
    apply List.Perm.of_eq
    norm_num [splitRows, splitRowsAux, splitContentRow, withCutFalse,
      withRecomputedDuration, subSegmentId, natChars, natCharsAux, digitChar]
    decide
  · norm_num

end Vigenair
